import Mathlib

/-!
Shallow embedding of the `pyodide-lock` dependency-resolution and
consistency-merge engine (`src/pyodide_lock/utils.py` and
`src/pyodide_lock/spec.py`), together with proofs settling the claims
about its specification.

External collaborators (archive-metadata extraction, wheel-filename
parsing, hashing, top-level import scanning) are modelled as inputs: a
`Disk` maps an absolute path string to the data the collaborators would
extract from the file stored there.  Marker expressions are modelled as
boolean predicates over the marker-environment mapping, matching the
`evaluateMarker` collaborator contract.
-/

set_option autoImplicit false

namespace PyodideLock

/-! ### Basic string helpers -/

/-- Drop `pre` from the front of `cs` when `cs` starts with it
(character-list form of a regex anchored at the start). -/
def stripLead : List Char → List Char → Option (List Char)
  | [], cs => some cs
  | _ :: _, [] => none
  | p :: ps, c :: cs => if c = p then stripLead ps cs else none

/-- Collapse runs of `.`, `_`, `-` to a single `-` and lowercase the rest:
the kernel of `packaging.utils.canonicalize_name`
(`re.sub(r"[-_.]+", "-", name).lower()`), which §4.3 of the spec states as
the canonicalization rule.  `prevSep` records whether the previous
character was part of a separator run. -/
def canonAux : Bool → List Char → List Char
  | _, [] => []
  | prevSep, c :: rest =>
    if c = '.' ∨ c = '_' ∨ c = '-' then
      if prevSep then canonAux true rest
      else '-' :: canonAux true rest
    else c.toLower :: canonAux false rest

/-- Canonicalize a package name (`packaging.utils.canonicalize_name`). -/
def canonicalize_name (s : String) : String :=
  ⟨canonAux false s.toList⟩

/-- Split a character list at a separator character (the kernel of
Python `str.split(sep)`); `acc` holds the current chunk reversed. -/
def splitCharAux (sep : Char) : List Char → List Char → List (List Char)
  | [], acc => [acc.reverse]
  | c :: rest, acc =>
    if c = sep then acc.reverse :: splitCharAux sep rest []
    else splitCharAux sep rest (c :: acc)

/-- Components of a dotted version string, e.g. `"3.11.3" ↦ ["3", "11", "3"]`. -/
def vParts (s : String) : List String :=
  (splitCharAux '.' s.toList []).map fun cs => ⟨cs⟩

/-- Numeric value of a digit run (Python `int` on a digit string),
accumulator style. -/
def digitsVal : List Char → Nat → Nat
  | [], acc => acc
  | c :: cs, acc => digitsVal cs (acc * 10 + (c.toNat - 48))

/-- Numeric value of a version component (its digits, `0` otherwise). -/
def vCompVal (s : String) : Nat :=
  if s.toList ≠ [] ∧ s.toList.all Char.isDigit then digitsVal s.toList 0 else 0

/-- Major component of a dotted version string
(`packaging.version.parse(s).major` for plain numeric versions). -/
def vMajor (s : String) : Nat :=
  vCompVal ((vParts s).headD "0")

/-- Minor component of a dotted version string
(`packaging.version.parse(s).minor` for plain numeric versions). -/
def vMinor (s : String) : Nat :=
  vCompVal (((vParts s).drop 1).headD "0")

/-! ### Association-list model of Python `dict` -/

/-- Lookup in an insertion-ordered map (Python `d[k]` / `k in d`). -/
def dictLookup {α : Type} : List (String × α) → String → Option α
  | [], _ => none
  | (a, b) :: t, k => if a = k then some b else dictLookup t k

/-- Key membership (Python `k in d`). -/
def dictMem {α : Type} (d : List (String × α)) (k : String) : Bool :=
  (dictLookup d k).isSome

/-- Assignment `d[k] = v`: update in place when the key exists (keeping
its position, as Python dicts do), otherwise append at the end. -/
def dictInsert {α : Type} : List (String × α) → String → α → List (String × α)
  | [], k, v => [(k, v)]
  | (a, b) :: t, k, v =>
    if a = k then (a, v) :: t else (a, b) :: dictInsert t k v

/-- In-place union `d |= e`: assign every binding of `e` into `d`, in
`e`'s insertion order. -/
def dictUnion {α : Type} (d e : List (String × α)) : List (String × α) :=
  e.foldl (fun acc kv => dictInsert acc kv.1 kv.2) d

/-- Key list of a map (Python `d.keys()`). -/
def dictKeys {α : Type} (d : List (String × α)) : List String :=
  d.map Prod.fst

/-! ### Marker environments -/

/-- Marker-evaluation environment: the flat `dict[str, str]` consumed by
`packaging.markers`. -/
abbrev MEnv := List (String × String)

/-- Dictionary read `env[k]`. -/
def envGet (env : MEnv) (k : String) : Option String :=
  dictLookup env k

/-- Dictionary write `env[k] = v`. -/
def envSet (env : MEnv) (k v : String) : MEnv :=
  dictInsert env k v

/-- The last-observed state of `packaging.markers.default_environment` in
pyodide (`_PYODIDE_MARKER_ENV` in `utils.py`). -/
def PYODIDE_MARKER_ENV : MEnv :=
  [("implementation_name", "cpython"),
   ("implementation_version", "3.11.3"),
   ("os_name", "posix"),
   ("platform_machine", "wasm32"),
   ("platform_release", "3.1.45"),
   ("platform_system", "Emscripten"),
   ("platform_version", "#1"),
   ("python_full_version", "3.11.3"),
   ("platform_python_implementation", "CPython"),
   ("python_version", "3.11"),
   ("sys_platform", "emscripten")]

/-- Predicate used by `splitPlatform` for the `[^_]` character class. -/
def notUnderscore (c : Char) : Bool :=
  c ≠ '_'

/-- Outcome of `re.match("([^_]+)_(.*)", platform)`: a non-empty run of
non-underscore characters, then `_`, then the remainder.  `none` when the
platform string has no underscore or starts with one. -/
def splitPlatform (platform : String) : Option (String × String) :=
  let cs := platform.toList
  let pre := cs.takeWhile notUnderscore
  match cs.dropWhile notUnderscore with
  | '_' :: tl => if pre.isEmpty then none else some (⟨pre⟩, ⟨tl⟩)
  | _ => none

/-- Embedding of `_get_marker_environment` (`utils.py`, reconstruction
branch used outside pyodide).  The `version` argument (runtime version) is
accepted but unused, as in the source. -/
def get_marker_environment (platform version arch python : String) : MEnv :=
  let _ := version
  let marker_env := PYODIDE_MARKER_ENV
  let marker_env :=
    match splitPlatform platform with
    | some (pre, suf) => envSet (envSet marker_env "sys_platform" pre) "platform_release" suf
    | none => marker_env
  let marker_env := envSet marker_env "implementation_version" python
  let marker_env := envSet marker_env "python_full_version" python
  let marker_env :=
    envSet marker_env "python_version" (toString (vMajor python) ++ "." ++ toString (vMinor python))
  envSet marker_env "platform_machine" arch

/-! ### Data model (`spec.py`) -/

/-- Embedding of `InfoSpec`: the environment descriptor of a lockfile. -/
structure InfoSpec where
  arch : String
  platform : String
  version : String
  python : String
deriving Repr, DecidableEq

/-- Embedding of `PackageSpec`: one package entry of a lockfile. -/
structure PackageSpec where
  name : String
  version : String
  file_name : String
  install_dir : String
  sha256 : String
  package_type : String
  imports : List String
  depends : List String
  unvendored_tests : Bool
  shared_library : Bool
deriving Repr, DecidableEq

/-- Embedding of `PyodideLockSpec`: environment descriptor plus the
insertion-ordered package map. -/
structure PyodideLockSpec where
  info : InfoSpec
  packages : List (String × PackageSpec)
deriving Repr, DecidableEq

/-- Marker expressions are consumed only through
`evaluateMarker(expression, environmentMapping) → bool`, so they are
embedded as boolean predicates on the environment mapping. -/
abbrev Marker := MEnv → Bool

/-- Embedding of `packaging.requirements.Requirement` as consumed by the
engine: a (raw) name, an optional marker and a set of extras. -/
structure Requirement where
  name : String
  marker : Option Marker
  extras : List String

/-- One build tag of a wheel filename: (interpreter, abi, platform). -/
structure WheelTag where
  interpreter : String
  abi : String
  platform : String
deriving Repr, DecidableEq

/-- The part of a wheel's embedded metadata the engine consumes
(`extractArchiveMetadata`): declared name, version and requirement list. -/
structure WheelMeta where
  name : String
  version : String
  requires_dist : List Requirement

/-- Everything the external collaborators extract from one on-disk wheel:
the build tags parsed from its filename (`none` models
`InvalidWheelFilename`), its metadata (`none` models unreadable/falsy
metadata), its content hash and its top-level import names. -/
structure WheelData where
  parsedTags : Option (List WheelTag)
  meta : Option WheelMeta
  hash : String
  imports : List String

/-- The file system as seen through the collaborators, keyed by absolute
path string. -/
abbrev Disk := String → Option WheelData

/-- Error kinds raised by the merge engine (`RuntimeError` / `ValueError`
subcases of `utils.py`, distinguished by site). -/
inductive MergeError where
  | invalidWheelName (fname : String)
  | incompatible (fname pythonBinaryAbi targetPlatform : String)
  | unreadableMetadata (fname : String)
  | missingDep (reqName : String)
  | pathNotUnderBase (fname : String)
  | fuelExhausted
deriving Repr, DecidableEq

/-! ### Paths

Absolute paths are modelled as their component lists (already resolved:
`Path.resolve()` is the identity on them). -/

/-- Join strings with a separator (`sep.join(parts)`). -/
def joinSep (sep : String) : List String → String
  | [] => ""
  | [x] => x
  | x :: xs => x ++ sep ++ joinSep sep xs

/-- String form of an absolute path (`str(path)`). -/
def pathStr (p : List String) : String :=
  "/" ++ joinSep "/" p

/-- Component list of an absolute path string (`Path(s)` on the output of
`pathStr`). -/
def pathOfStr (s : String) : List String :=
  ((splitCharAux '/' s.toList []).map (fun cs => (⟨cs⟩ : String))).filter
    (fun c => c ≠ "")

/-- Python `PurePath.relative_to`: strip `base`'s components from the
front of `p`, `none` (a raised `ValueError`) when `base` is not a prefix. -/
def relTo : List String → List String → Option (List String)
  | p, [] => some p
  | [], _ :: _ => none
  | c :: p, b :: base => if c = b then relTo p base else none

/-- String form of the relative path returned by `relative_to`
(`str(Path("."))` is `"."` when the two paths coincide). -/
def relStr (rel : List String) : String :=
  if rel.isEmpty then "." else joinSep "/" rel

/-! ### Compatibility checker (`_check_wheel_compatible`) -/

/-- Outcome of `re.match(rf"py{major}(\d*)", interp)` followed by the
check `len(subver) == 0 or int(subver) <= minor`: `re.match` anchors only
at the start, so `(\d*)` captures the maximal digit run right after
`py<major>` and trailing characters are not examined. -/
def pyTagOk (major minor : Nat) (interp : String) : Bool :=
  match stripLead ("py" ++ toString major).toList interp.toList with
  | none => false
  | some rest =>
    let subver := rest.takeWhile Char.isDigit
    subver.isEmpty || digitsVal subver 0 ≤ minor

/-- The `"cp" + major + minor` interpreter/abi tag expected for binary
wheels (`python_binary_abi` in the source). -/
def pythonBinaryAbi (python : String) : String :=
  "cp" ++ toString (vMajor python) ++ toString (vMinor python)

/-- The `platform + "_" + arch` platform tag expected for binary wheels. -/
def targetPlatformTag (info : InfoSpec) : String :=
  info.platform ++ "_" ++ info.arch

/-- Per-tag body of the loop in `_check_wheel_compatible`: the exact
binary match, or (`elif`) the pure-wheel match. -/
def tagOk (info : InfoSpec) (t : WheelTag) : Bool :=
  (t.abi = pythonBinaryAbi info.python && t.interpreter = pythonBinaryAbi info.python
      && t.platform = targetPlatformTag info)
  || (t.abi = "none" && t.platform = "any"
      && pyTagOk (vMajor info.python) (vMinor info.python) t.interpreter)

/-- Embedding of `_check_wheel_compatible` (`utils.py`).  `parsedTags`
is the outcome of `parse_wheel_filename` on the wheel's filename. -/
def check_wheel_compatible (fname : String) (parsedTags : Option (List WheelTag))
    (info : InfoSpec) : Except MergeError Unit :=
  match parsedTags with
  | none => .error (.invalidWheelName fname)
  | some tags =>
    if tags.any (tagOk info) then .ok ()
    else .error (.incompatible fname (pythonBinaryAbi info.python) (targetPlatformTag info))

/-- Embedding of `package_spec_from_wheel` (`utils.py`) /
`PackageSpec._from_wheel` (`spec.py`): compatibility check first, then a
draft entry with absolute path and empty dependency list. -/
def package_spec_from_wheel (disk : Disk) (path : List String) (info : InfoSpec) :
    Except MergeError PackageSpec :=
  let pstr := pathStr path
  match disk pstr with
  | none => .error (.unreadableMetadata pstr)
  | some wd =>
    match check_wheel_compatible pstr wd.parsedTags info with
    | .error e => .error e
    | .ok () =>
      match wd.meta with
      | none => .error (.unreadableMetadata pstr)
      | some md =>
        .ok { name := canonicalize_name md.name
              version := md.version
              file_name := pstr
              install_dir := "site"
              sha256 := wd.hash
              package_type := "package"
              imports := wd.imports
              depends := []
              unvendored_tests := false
              shared_library := false }

/-! ### Dependency closure resolver (`_fix_new_package_deps`, `_fix_extra_dep`) -/

/-- Body of the requirement loop of `_fix_new_package_deps` (lines
221–240 of `utils.py`): marker-filter each requirement, remember
requirements with extras on the worklist, and record the dependency edge
when the canonical name resolves in the batch or the lockfile (or
unconditionally under the ignore-missing override); otherwise raise.
Returns `(our_depends, requirements_with_extras)` in iteration order. -/
def processReqs (env : MEnv) (newNames : List String)
    (lockPkgs : List (String × PackageSpec)) (ignore : Bool) :
    List Requirement → Except MergeError (List String × List Requirement)
  | [] => .ok ([], [])
  | r :: rest =>
    let req_name := canonicalize_name r.name
    let skip : Bool :=
      match r.marker with
      | some m => !(m env)
      | none => false
    if skip then processReqs env newNames lockPkgs ignore rest
    else
      let extrasHere := if r.extras.isEmpty then [] else [r]
      if newNames.contains req_name || dictMem lockPkgs req_name then
        match processReqs env newNames lockPkgs ignore rest with
        | .error e => .error e
        | .ok (d, ex) => .ok (req_name :: d, extrasHere ++ ex)
      else if ignore then
        match processReqs env newNames lockPkgs ignore rest with
        | .error e => .error e
        | .ok (d, ex) => .ok (req_name :: d, extrasHere ++ ex)
      else .error (.missingDep req_name)

/-- Outer loop of `_fix_new_package_deps` over the draft packages: read
each draft's metadata, compute its `depends` via `processReqs`, and
accumulate the extras worklist across packages in order. -/
def mainLoop (disk : Disk) (env : MEnv) (newNames : List String)
    (lockPkgs : List (String × PackageSpec)) (ignore : Bool) :
    List (String × PackageSpec) →
    Except MergeError (List (String × PackageSpec) × List Requirement)
  | [] => .ok ([], [])
  | (k, p) :: rest =>
    match disk p.file_name with
    | none => .error (.unreadableMetadata p.file_name)
    | some wd =>
      match wd.meta with
      | none => .error (.unreadableMetadata p.file_name)
      | some md =>
        match processReqs env newNames lockPkgs ignore md.requires_dist with
        | .error e => .error e
        | .ok (deps, extras) =>
          match mainLoop disk env newNames lockPkgs ignore rest with
          | .error e => .error e
          | .ok (rest2, extras2) =>
            .ok ((k, { p with depends := deps }) :: rest2, extras ++ extras2)

/-- Inner requirement scan of `_fix_extra_dep` (lines 277–294 of
`utils.py`), under one augmented environment `envE`: requirements already
recorded in `deps` are skipped, markerless requirements are skipped (they
were processed by the main loop), marker-true requirements are appended
to `deps` when resolvable (also enqueuing them when they carry extras) or
under the ignore-missing override, and otherwise raise. -/
def reqScanExtra (envE : MEnv) (newNames : List String)
    (lockPkgs : List (String × PackageSpec)) (ignore : Bool) :
    List Requirement → List String → List Requirement →
    Except MergeError (List String × List Requirement)
  | [], deps, out => .ok (deps, out)
  | r :: rest, deps, out =>
    let req_name := canonicalize_name r.name
    if deps.contains req_name then reqScanExtra envE newNames lockPkgs ignore rest deps out
    else
      match r.marker with
      | none => reqScanExtra envE newNames lockPkgs ignore rest deps out
      | some m =>
        if m envE then
          if newNames.contains req_name || dictMem lockPkgs req_name then
            reqScanExtra envE newNames lockPkgs ignore rest (deps ++ [req_name])
              (out ++ if r.extras.isEmpty then [] else [r])
          else if ignore then
            reqScanExtra envE newNames lockPkgs ignore rest (deps ++ [req_name]) out
          else .error (.missingDep req_name)
        else reqScanExtra envE newNames lockPkgs ignore rest deps out

/-- Loop of `_fix_extra_dep` over the named extras: each extra re-scans
the target's requirement list under the environment augmented with
`extra`, threading the growing `deps` list. -/
def extrasLoop (env : MEnv) (newNames : List String)
    (lockPkgs : List (String × PackageSpec)) (ignore : Bool) (reqs : List Requirement) :
    List String → List String → List Requirement →
    Except MergeError (List String × List Requirement)
  | [], deps, out => .ok (deps, out)
  | extra :: es, deps, out =>
    match reqScanExtra (envSet env "extra" extra) newNames lockPkgs ignore reqs deps out with
    | .error e => .error e
    | .ok (deps2, out2) => extrasLoop env newNames lockPkgs ignore reqs es deps2 out2

/-- Embedding of `_fix_extra_dep` (`utils.py`).  A pending requirement
whose canonical target is not a draft package causes no change; otherwise
the target's requirement list is re-scanned under each extra and its
`depends` entry updated in place. -/
def fix_extra_dep (disk : Disk) (env : MEnv) (lockPkgs : List (String × PackageSpec))
    (extra_req : Requirement) (new_packages : List (String × PackageSpec)) (ignore : Bool) :
    Except MergeError (List (String × PackageSpec) × List Requirement) :=
  let extra_package_name := canonicalize_name extra_req.name
  match dictLookup new_packages extra_package_name with
  | none => .ok (new_packages, [])
  | some package =>
    match disk package.file_name with
    | none => .error (.unreadableMetadata package.file_name)
    | some wd =>
      match wd.meta with
      | none => .error (.unreadableMetadata package.file_name)
      | some md =>
        match extrasLoop env (dictKeys new_packages) lockPkgs ignore md.requires_dist
            extra_req.extras package.depends [] with
        | .error e => .error e
        | .ok (our_depends, out) =>
          .ok (dictInsert new_packages extra_package_name
                { package with depends := our_depends }, out)

/-- The `while` drain of the extras worklist (lines 242–248 of
`utils.py`): `list.pop()` removes the last element, newly discovered
requirements are appended at the end.  The loop terminates on every run
of the source (each appended item is paired with a strict growth of some
draft's `depends`); the embedding makes the induction explicit through a
fuel parameter, and claims about completed runs quantify over the fuel. -/
def drain (disk : Disk) (env : MEnv) (lockPkgs : List (String × PackageSpec)) (ignore : Bool) :
    Nat → List (String × PackageSpec) → List Requirement →
    Except MergeError (List (String × PackageSpec))
  | fuel, pkgs, wl =>
    match wl.getLast? with
    | none => .ok pkgs
    | some extra_req =>
      match fuel with
      | 0 => .error .fuelExhausted
      | fuel + 1 =>
        match fix_extra_dep disk env lockPkgs extra_req pkgs ignore with
        | .error e => .error e
        | .ok (pkgs2, out) => drain disk env lockPkgs ignore fuel pkgs2 (wl.dropLast ++ out)

/-- Embedding of `_fix_new_package_deps` (`utils.py`): compute the marker
environment from the lockfile's descriptor, fix every draft's `depends`,
then drain the extras worklist. -/
def fix_new_package_deps (disk : Disk) (fuel : Nat) (lock_spec : PyodideLockSpec)
    (new_packages : List (String × PackageSpec)) (ignore : Bool) :
    Except MergeError (List (String × PackageSpec)) :=
  let env := get_marker_environment lock_spec.info.platform lock_spec.info.version
    lock_spec.info.arch lock_spec.info.python
  match mainLoop disk env (dictKeys new_packages) lock_spec.packages ignore new_packages with
  | .error e => .error e
  | .ok (pkgs, worklist) => drain disk env lock_spec.packages ignore fuel pkgs worklist

/-! ### Path normalizer and merge (`_set_package_paths`, `add_wheels_to_spec`) -/

/-- Embedding of `_set_package_paths` (`utils.py`): rewrite each draft's
location to `base_url + str(Path(file_name).relative_to(base_path))`;
a path that is not under `base_path` raises. -/
def set_package_paths (base_path : List String) (base_url : String) :
    List (String × PackageSpec) → Except MergeError (List (String × PackageSpec))
  | [] => .ok []
  | (k, p) :: rest =>
    match relTo (pathOfStr p.file_name) base_path with
    | none => .error (.pathNotUnderBase p.file_name)
    | some rel =>
      match set_package_paths base_path base_url rest with
      | .error e => .error e
      | .ok rest2 => .ok ((k, { p with file_name := base_url ++ relStr rel }) :: rest2)

/-- The `for f in wheel_files` loop of `add_wheels_to_spec` building the
draft map keyed by canonical name. -/
def buildNewPackagesAux (disk : Disk) (info : InfoSpec) :
    List (String × PackageSpec) → List (List String) →
    Except MergeError (List (String × PackageSpec))
  | acc, [] => .ok acc
  | acc, w :: ws =>
    match package_spec_from_wheel disk w info with
    | .error e => .error e
    | .ok spec => buildNewPackagesAux disk info (dictInsert acc spec.name spec) ws

/-- Draft package map built from a batch of wheel paths. -/
def buildNewPackages (disk : Disk) (info : InfoSpec) (wheel_files : List (List String)) :
    Except MergeError (List (String × PackageSpec)) :=
  buildNewPackagesAux disk info [] wheel_files

/-- Base-path defaulting of `add_wheels_to_spec` / `add_wheels` (lines
186–189 of `utils.py`): the caller's base path when supplied, otherwise
the parent directory of the first wheel in the batch. -/
def defaultBasePath (wheel_files : List (List String)) (base_path : Option (List String)) :
    List String :=
  match base_path with
  | some b => b
  | none => (wheel_files.headD []).dropLast

/-- Embedding of `add_wheels_to_spec` (`utils.py`): returns the merged
lockfile, or the first error raised.  Wheel paths are given resolved
(`Path.resolve()` is the identity in this model). -/
def add_wheels_to_spec (disk : Disk) (fuel : Nat) (lock_spec : PyodideLockSpec)
    (wheel_files : List (List String)) (base_path : Option (List String))
    (base_url : String) (ignore_missing_dependencies : Bool) :
    Except MergeError PyodideLockSpec :=
  if wheel_files.isEmpty then .ok lock_spec
  else
    match buildNewPackages disk lock_spec.info wheel_files with
    | .error e => .error e
    | .ok new_packages =>
      match fix_new_package_deps disk fuel lock_spec new_packages
          ignore_missing_dependencies with
      | .error e => .error e
      | .ok new_packages =>
        match set_package_paths (defaultBasePath wheel_files base_path) base_url
            new_packages with
        | .error e => .error e
        | .ok new_packages =>
          .ok { lock_spec with packages := dictUnion lock_spec.packages new_packages }

/-- Embedding of `PyodideLockSpec.add_wheels` (`spec.py`), the in-place
variant: the result's first component is the post-state of `self`, the
second the raised error if any.  The method's statements mutate only the
freshly built draft entries until the final `self.packages |= new_packages`,
so `self` is returned unchanged on every error path, exactly as each
statement of the source leaves it. -/
def add_wheels (disk : Disk) (fuel : Nat) (self : PyodideLockSpec)
    (wheel_files : List (List String)) (base_path : Option (List String))
    (base_url : String) (ignore_missing_dependencies : Bool) :
    PyodideLockSpec × Option MergeError :=
  if wheel_files.isEmpty then (self, none)
  else
    match buildNewPackages disk self.info wheel_files with
    | .error e => (self, some e)
    | .ok new_packages =>
      match fix_new_package_deps disk fuel self new_packages
          ignore_missing_dependencies with
      | .error e => (self, some e)
      | .ok new_packages =>
        match set_package_paths (defaultBasePath wheel_files base_path) base_url
            new_packages with
        | .error e => (self, some e)
        | .ok new_packages =>
          ({ self with packages := dictUnion self.packages new_packages }, none)

/-! ### Filename-consistency validation (`check_wheel_filenames`) -/

/-- Errors of `PyodideLockSpec.check_wheel_filenames`: an unparsable
wheel filename propagates as its own exception; collected mismatches are
raised as one `ValueError` at the end. -/
inductive CheckError where
  | invalidFilename (fname : String)
  | mismatches (errors : List (String × List String))

/-- Accumulation `errors.setdefault(name, []).append(msg)`. -/
def errInsert (errors : List (String × List String)) (k msg : String) :
    List (String × List String) :=
  match dictLookup errors k with
  | some l => dictInsert errors k (l ++ [msg])
  | none => errors ++ [(k, [msg])]

/-- Python `str.endswith`. -/
def strEndsWith (s suffix : String) : Bool :=
  decide (suffix.toList <:+ s.toList)

/-- Name-mismatch message of `check_wheel_filenames`. -/
def nameMsg (name_in_wheel specName : String) : String :=
  "Package name in wheel filename " ++ name_in_wheel ++ " does not match " ++ specName

/-- Version-mismatch message of `check_wheel_filenames`. -/
def verMsg (canonVer canonSpecVer : String) : String :=
  "Version in the wheel filename " ++ canonVer
    ++ " does not match package version " ++ canonSpecVer

/-- Loop of `check_wheel_filenames` over the package map.  `parseWF`
models `parse_wheel_filename` restricted to the name and version it
yields (`none` models `InvalidWheelFilename`); `canonV` models
`canonicalize_version`.  Both are external collaborators. -/
def checkWheelLoop (parseWF : String → Option (String × String)) (canonV : String → String) :
    List (String × PackageSpec) → List (String × List String) →
    Except CheckError (List (String × List String))
  | [], errors => .ok errors
  | (name, spec) :: rest, errors =>
    if strEndsWith spec.file_name ".whl" then
      match parseWF spec.file_name with
      | none => .error (.invalidFilename spec.file_name)
      | some (name_in_wheel, ver) =>
        let errors :=
          if canonicalize_name name_in_wheel = canonicalize_name spec.name then errors
          else errInsert errors name (nameMsg name_in_wheel spec.name)
        let errors :=
          if canonV ver = canonV spec.version then errors
          else errInsert errors name (verMsg (canonV ver) (canonV spec.version))
        checkWheelLoop parseWF canonV rest errors
    else checkWheelLoop parseWF canonV rest errors

/-- Embedding of `PyodideLockSpec.check_wheel_filenames` (`spec.py`). -/
def check_wheel_filenames (parseWF : String → Option (String × String))
    (canonV : String → String) (lock : PyodideLockSpec) : Except CheckError Unit :=
  match checkWheelLoop parseWF canonV lock.packages [] with
  | .error e => .error e
  | .ok errors => if errors.isEmpty then .ok () else .error (.mismatches errors)

/-! ### Metadata cache (`_wheel_metadata`) -/

/-- State of the `functools.cache` decorating `_wheel_metadata`: the
decorator lives at module level, so this state persists for the whole
process, across merge invocations.  Cached values include `None` returns
of `pkginfo.get_metadata`. -/
abbrev MetaCache := List (String × Option WheelMeta)

/-- Embedding of `_wheel_metadata` (`utils.py`) with the `functools.cache`
state made explicit: a hit returns the cached value without consulting
the disk; a miss reads the disk and caches whatever it returned. -/
def wheel_metadata (cache : MetaCache) (disk : String → Option WheelMeta) (path : String) :
    Option WheelMeta × MetaCache :=
  match dictLookup cache path with
  | some r => (r, cache)
  | none => (disk path, dictInsert cache path (disk path))

/-- Two merge invocations in one process, each performing a metadata read
of `path`: the module-level cache produced by the first invocation is the
cache the second starts from (this is exactly what a module-level
`functools.cache` does).  The disk may have changed in between. -/
def two_merge_metadata_reads (disk1 disk2 : String → Option WheelMeta) (path : String) :
    Option WheelMeta × Option WheelMeta :=
  let first := wheel_metadata [] disk1 path
  let second := wheel_metadata first.2 disk2 path
  (first.1, second.1)

/-! ### Spec-side comparison definitions

These definitions are written from the specification's words (not from
the source) and exist only to be compared with the embedded code. -/

/-- Marker filtering as the spec describes it: a requirement survives
when it has no marker or its marker evaluates true. -/
def survivesB (env : MEnv) (r : Requirement) : Bool :=
  match r.marker with
  | some m => m env
  | none => true

/-- Exact-match rule of the compatibility claim: interpreter tag and ABI
tag both equal `"cp" + major + minor`, platform tag equal to
`platform + "_" + arch`. -/
def claimExactTag (info : InfoSpec) (t : WheelTag) : Bool :=
  t.interpreter = pythonBinaryAbi info.python && t.abi = pythonBinaryAbi info.python
    && t.platform = targetPlatformTag info

/-- Pure-build rule exactly as the claim words it: ABI `"none"`, platform
`"any"`, and an interpreter tag *of the form* `py<major><minor-digits>`
— the whole remainder after `py<major>` must be the (possibly empty)
minor-digits run, empty or numerically at most the target minor. -/
def claimPureTag (major minor : Nat) (t : WheelTag) : Bool :=
  t.abi = "none" && t.platform = "any"
    && (match stripLead ("py" ++ toString major).toList t.interpreter.toList with
        | none => false
        | some rest =>
          rest.all Char.isDigit
            && (rest.isEmpty || digitsVal rest 0 ≤ minor))

/-- Acceptance predicate of claim C5 as stated: some build tag satisfies
the exact rule or the claim's pure-build rule. -/
def claimAccepts (info : InfoSpec) (tags : List WheelTag) : Bool :=
  tags.any fun t =>
    claimExactTag info t || claimPureTag (vMajor info.python) (vMinor info.python) t

/-- Amended pure-build rule, changed only as the code forces: the
interpreter tag *begins with* `py<major>`, and the maximal digit run
immediately following is empty or numerically at most the target minor
version; trailing non-digit characters are not examined. -/
def PureTagAmended (major minor : Nat) (t : WheelTag) : Prop :=
  t.abi = "none" ∧ t.platform = "any" ∧
    ∃ ds rest : List Char,
      t.interpreter.toList = ("py" ++ toString major).toList ++ ds ++ rest ∧
      (∀ c ∈ ds, c.isDigit = true) ∧
      (∀ c, rest.head? = some c → c.isDigit = false) ∧
      (ds = [] ∨ digitsVal ds 0 ≤ minor)

/-- Exact-match rule as a proposition, from the spec's words. -/
def ExactTagSpec (info : InfoSpec) (t : WheelTag) : Prop :=
  t.interpreter = pythonBinaryAbi info.python ∧ t.abi = pythonBinaryAbi info.python ∧
    t.platform = targetPlatformTag info

/-- Per-entry mismatch messages of `check_wheel_filenames`, as the claim
describes them: nothing for entries whose location is not a local wheel
filename, one message per name discrepancy and one per version
discrepancy otherwise. -/
def entryMsgs (parseWF : String → Option (String × String)) (canonV : String → String)
    (kp : String × PackageSpec) : List String :=
  if strEndsWith kp.2.file_name ".whl" then
    match parseWF kp.2.file_name with
    | none => []
    | some (n, v) =>
      (if canonicalize_name n = canonicalize_name kp.2.name then []
       else [nameMsg n kp.2.name]) ++
      (if canonV v = canonV kp.2.version then []
       else [verMsg (canonV v) (canonV kp.2.version)])
  else []

/-- Number of discrepancies of one entry, from the claim's words. -/
def specMismatchCount (parseWF : String → Option (String × String))
    (canonV : String → String) (kp : String × PackageSpec) : Nat :=
  if strEndsWith kp.2.file_name ".whl" then
    match parseWF kp.2.file_name with
    | none => 0
    | some (n, v) =>
      (if canonicalize_name n = canonicalize_name kp.2.name then 0 else 1) +
      (if canonV v = canonV kp.2.version then 0 else 1)
  else 0

/-- Accumulated mismatch structure over a package list: one slot per
entry with at least one discrepancy, in map order. -/
def entriesErrors (parseWF : String → Option (String × String))
    (canonV : String → String) : List (String × PackageSpec) → List (String × List String)
  | [] => []
  | kp :: rest =>
    (if (entryMsgs parseWF canonV kp).isEmpty then []
     else [(kp.1, entryMsgs parseWF canonV kp)]) ++ entriesErrors parseWF canonV rest

/-- Message count recorded for key `k` in an accumulated error map. -/
def errLen (errors : List (String × List String)) (k : String) : Nat :=
  match dictLookup errors k with
  | some l => l.length
  | none => 0

/-! ### Concrete scenario used by the witnesses -/

/-- Environment descriptor of the running example. -/
def info0 : InfoSpec :=
  { arch := "wasm32", platform := "emscripten_3_1_45", version := "0.2.2", python := "3.11.3" }

/-- Empty lockfile of the running example. -/
def lock0 : PyodideLockSpec :=
  { info := info0, packages := [] }

/-- Path of the first example wheel. -/
def wheelApath : List String := ["tmp", "pkga-1.0.0-py3-none-any.whl"]

/-- Path of the second example wheel. -/
def wheelBpath : List String := ["tmp", "pkgb-2.0.0-py3-none-any.whl"]

/-- On-disk data of the first example wheel: depends on `pkgb`. -/
def wheelAdata : WheelData :=
  { parsedTags := some [{ interpreter := "py3", abi := "none", platform := "any" }]
    meta := some { name := "pkga", version := "1.0.0",
                   requires_dist := [{ name := "pkgb", marker := none, extras := [] }] }
    hash := "aa11"
    imports := ["pkga"] }

/-- On-disk data of the second example wheel: no dependencies. -/
def wheelBdata : WheelData :=
  { parsedTags := some [{ interpreter := "py3", abi := "none", platform := "any" }]
    meta := some { name := "pkgb", version := "2.0.0", requires_dist := [] }
    hash := "bb22"
    imports := ["pkgb"] }

/-- Example disk holding both wheels. -/
def disk0 : Disk := fun s =>
  if s = pathStr wheelApath then some wheelAdata
  else if s = pathStr wheelBpath then some wheelBdata
  else none

/-- Result of merging the two example wheels into the empty lockfile. -/
def res0 : PyodideLockSpec :=
  (add_wheels_to_spec disk0 0 lock0 [wheelApath, wheelBpath] none "" false).toOption.getD lock0

/-- Disk on which every read fails. -/
def diskEmpty : Disk := fun _ => none

/-- Metadata of the example wheel as first written to disk. -/
def metaV1 : WheelMeta :=
  { name := "pkga", version := "1.0.0", requires_dist := [] }

/-- Metadata of the example wheel after it is rewritten on disk. -/
def metaV2 : WheelMeta :=
  { name := "pkga", version := "2.0.0", requires_dist := [] }

/-- Metadata view of the disk before the rewrite. -/
def diskMeta1 : String → Option WheelMeta :=
  fun s => if s = pathStr wheelApath then some metaV1 else none

/-- Metadata view of the disk after the rewrite. -/
def diskMeta2 : String → Option WheelMeta :=
  fun s => if s = pathStr wheelApath then some metaV2 else none

/-- A pure-looking tag whose interpreter has trailing junk after `py3`. -/
def tagPure3x : WheelTag :=
  { interpreter := "py3x", abi := "none", platform := "any" }

/-- The exact binary tag matching `info0`. -/
def tagExact0 : WheelTag :=
  { interpreter := "cp311", abi := "cp311", platform := "emscripten_3_1_45_wasm32" }

/-- Draft entry of the first example wheel before path normalization. -/
def draftA : PackageSpec :=
  { name := "pkga", version := "1.0.0", file_name := pathStr wheelApath,
    install_dir := "site", sha256 := "aa11", package_type := "package",
    imports := ["pkga"], depends := ["pkgb"],
    unvendored_tests := false, shared_library := false }

/-- The same draft entry with its location outside the base path. -/
def draftABad : PackageSpec :=
  { draftA with file_name := "/other/pkga-1.0.0-py3-none-any.whl" }

/-- The draft entry after path normalization against base `/tmp`. -/
def draftAnorm : PackageSpec :=
  { draftA with file_name := "pkga-1.0.0-py3-none-any.whl" }

/-- Marker gated on the `extra` key being `"feat"`. -/
def markerFeat : Marker := fun env => envGet env "extra" == some "feat"

/-- Requirement on `pkgb` gated behind the `feat` extra. -/
def reqBfeat : Requirement := { name := "pkgb", marker := some markerFeat, extras := [] }

/-- Metadata of the example wheel whose only requirement is extras-gated. -/
def metaAx : WheelMeta :=
  { name := "pkga", version := "1.0.0", requires_dist := [reqBfeat] }

/-- On-disk data for the extras example. -/
def wheelAxdata : WheelData :=
  { parsedTags := some [{ interpreter := "py3", abi := "none", platform := "any" }]
    meta := some metaAx
    hash := "aa11"
    imports := ["pkga"] }

/-- Disk of the extras example. -/
def diskX : Disk := fun s => if s = pathStr wheelApath then some wheelAxdata else none

/-- Draft entry of the extras example before the worklist drain. -/
def draftAempty : PackageSpec := { draftA with depends := [] }

/-- Lockfile entry satisfying the `pkgb` requirement of the extras example. -/
def pkgbLockEntry : PackageSpec :=
  { name := "pkgb", version := "2.0.0", file_name := "pkgb-2.0.0-py3-none-any.whl",
    install_dir := "site", sha256 := "bb22", package_type := "package",
    imports := ["pkgb"], depends := [], unvendored_tests := false,
    shared_library := false }

/-- Pending requirement-with-extras on `pkga` naming the `feat` extra. -/
def erX : Requirement := { name := "pkga", marker := none, extras := ["feat"] }

/-- Pending requirement naming a package outside the batch. -/
def erAbsent : Requirement := { name := "absent", marker := none, extras := ["x"] }

/-- Marker environment of the running example. -/
def envX : MEnv :=
  get_marker_environment info0.platform info0.version info0.arch info0.python

/-- Outcome of the worklist step of the extras example. -/
def fedResX : List (String × PackageSpec) × List Requirement :=
  (fix_extra_dep diskX envX [("pkgb", pkgbLockEntry)] erX [("pkga", draftAempty)]
    false).toOption.getD ([], [])

/-- Markerless requirement on a package present in the lockfile. -/
def reqPlain : Requirement := { name := "pkgb", marker := none, extras := [] }

/-- Markerless requirement on a package that resolves nowhere. -/
def reqMissing : Requirement := { name := "nope", marker := none, extras := [] }

/-- Extras-gated requirement on a package that resolves nowhere. -/
def reqMissingM : Requirement := { name := "nope", marker := some markerFeat, extras := [] }

/-- Lockfile entry whose wheel filename agrees with its fields. -/
def specNumpy : PackageSpec :=
  { name := "numpy", version := "1.24.3",
    file_name := "numpy-1.24.3-cp311-cp311-emscripten_3_1_45_wasm32.whl",
    install_dir := "site", sha256 := "cc33", package_type := "package",
    imports := ["numpy"], depends := [], unvendored_tests := false,
    shared_library := false }

/-- Lockfile entry whose wheel filename disagrees in both name and
version. -/
def specFoo : PackageSpec :=
  { name := "foo", version := "1.0",
    file_name := "foo2-0.2.3-py3-none-any.whl",
    install_dir := "site", sha256 := "dd44", package_type := "package",
    imports := ["foo"], depends := [], unvendored_tests := false,
    shared_library := false }

/-- Wheel-filename parser of the validation example. -/
def parseC6 : String → Option (String × String) := fun s =>
  if s = specNumpy.file_name then some ("numpy", "1.24.3")
  else if s = specFoo.file_name then some ("foo2", "0.2.3")
  else none

/-- Lockfile of the validation example: one consistent entry, one entry
with two discrepancies. -/
def lockC6 : PyodideLockSpec :=
  { info := info0, packages := [("numpy", specNumpy), ("foo", specFoo)] }

/-- Lockfile of the validation example with only the consistent entry. -/
def lockC6good : PyodideLockSpec :=
  { info := info0, packages := [("numpy", specNumpy)] }

/-- Mismatch structure reported for the validation example. -/
def C6errs : List (String × List String) :=
  match check_wheel_filenames parseC6 (fun v => v) lockC6 with
  | .error (.mismatches e) => e
  | _ => []

/-- Closure property of a draft package map relative to a set of batch
names and the existing lockfile: every recorded dependency name resolves
to a batch name or an existing lockfile key. -/
def DepsOkN (names : List String) (lockPkgs : List (String × PackageSpec))
    (d : List (String × PackageSpec)) : Prop :=
  ∀ kp ∈ d, ∀ n ∈ kp.2.depends,
    names.contains n = true ∨ dictMem lockPkgs n = true

/-! ### Dictionary lemmas -/

theorem dictLookup_dictInsert {α : Type} (d : List (String × α)) (k : String) (v : α)
    (k' : String) :
    dictLookup (dictInsert d k v) k' = if k = k' then some v else dictLookup d k' := by
  induction d with
  | nil => simp [dictInsert, dictLookup]
  | cons a t ih =>
    obtain ⟨a1, a2⟩ := a
    by_cases h1 : a1 = k
    · subst h1
      simp only [dictInsert, if_pos rfl, dictLookup]
      by_cases h2 : a1 = k' <;> simp [h2]
    · simp only [dictInsert, if_neg h1, dictLookup, ih]
      by_cases h2 : a1 = k'
      · subst h2
        have h3 : k ≠ a1 := fun h => h1 h.symm
        simp [h3]
      · simp [h2]

theorem dictMem_dictInsert {α : Type} (d : List (String × α)) (k : String) (v : α)
    (k' : String) :
    dictMem (dictInsert d k v) k' = true ↔ k = k' ∨ dictMem d k' = true := by
  simp only [dictMem, dictLookup_dictInsert]
  by_cases h : k = k' <;> simp [h]

theorem dictKeys_dictInsert_of_mem {α : Type} (d : List (String × α)) (k : String) (v w : α)
    (h : dictLookup d k = some w) : dictKeys (dictInsert d k v) = dictKeys d := by
  induction d with
  | nil => simp [dictLookup] at h
  | cons a t ih =>
    obtain ⟨a1, a2⟩ := a
    by_cases h1 : a1 = k
    · subst h1
      simp [dictInsert, dictKeys]
    · simp only [dictLookup, if_neg h1] at h
      have ih2 := ih h
      simp only [dictKeys] at ih2
      simp [dictInsert, if_neg h1, dictKeys, ih2]

theorem mem_of_dictLookup {α : Type} (d : List (String × α)) (k : String) (v : α)
    (h : dictLookup d k = some v) : (k, v) ∈ d := by
  induction d with
  | nil => simp [dictLookup] at h
  | cons a t ih =>
    obtain ⟨a1, a2⟩ := a
    by_cases h1 : a1 = k
    · subst h1
      simp only [dictLookup, if_pos rfl, if_true, Option.some.injEq] at h
      subst h
      exact List.mem_cons_self _ _
    · simp only [dictLookup, if_neg h1] at h
      exact List.mem_cons_of_mem _ (ih h)

theorem dictKeys_cons {α : Type} (a1 : String) (a2 : α) (t : List (String × α)) :
    dictKeys ((a1, a2) :: t) = a1 :: dictKeys t := rfl

theorem dictMem_iff_keys {α : Type} (d : List (String × α)) (k : String) :
    dictMem d k = true ↔ k ∈ dictKeys d := by
  induction d with
  | nil => simp [dictMem, dictLookup, dictKeys]
  | cons a t ih =>
    obtain ⟨a1, a2⟩ := a
    rw [dictKeys_cons, List.mem_cons]
    by_cases h1 : a1 = k
    · subst h1
      simp [dictMem, dictLookup]
    · rw [← ih]
      have h2 : k ≠ a1 := fun h => h1 h.symm
      simp [dictMem, dictLookup, if_neg h1, h2]

theorem entry_mem_dictInsert {α : Type} (d : List (String × α)) (k : String) (v : α)
    (kp : String × α) (h : kp ∈ dictInsert d k v) : kp ∈ d ∨ kp = (k, v) := by
  induction d with
  | nil =>
    simp [dictInsert] at h
    exact Or.inr h
  | cons a t ih =>
    obtain ⟨a1, a2⟩ := a
    by_cases h1 : a1 = k
    · subst h1
      simp only [dictInsert, if_pos rfl] at h
      rcases List.mem_cons.mp h with h2 | h2
      · exact Or.inr h2
      · exact Or.inl (List.mem_cons_of_mem _ h2)
    · simp only [dictInsert, if_neg h1] at h
      rcases List.mem_cons.mp h with h2 | h2
      · exact Or.inl (by simp [h2])
      · rcases ih h2 with h3 | h3
        · exact Or.inl (List.mem_cons_of_mem _ h3)
        · exact Or.inr h3

theorem entry_mem_dictUnion {α : Type} (e d : List (String × α)) (kp : String × α)
    (h : kp ∈ dictUnion d e) : kp ∈ d ∨ kp ∈ e := by
  induction e generalizing d with
  | nil => exact Or.inl h
  | cons x e ih =>
    have h2 : kp ∈ dictUnion (dictInsert d x.1 x.2) e := h
    rcases ih _ h2 with h3 | h3
    · rcases entry_mem_dictInsert _ _ _ _ h3 with h4 | h4
      · exact Or.inl h4
      · exact Or.inr (by simp [h4])
    · exact Or.inr (List.mem_cons_of_mem _ h3)

theorem dictMem_dictUnion {α : Type} (e d : List (String × α)) (k : String) :
    dictMem (dictUnion d e) k = true ↔ dictMem d k = true ∨ dictMem e k = true := by
  induction e generalizing d with
  | nil => simp [dictUnion, dictMem, dictLookup]
  | cons x e ih =>
    have : dictUnion d (x :: e) = dictUnion (dictInsert d x.1 x.2) e := rfl
    rw [this, ih, dictMem_dictInsert]
    constructor
    · rintro (⟨h | h⟩ | h)
      · exact Or.inr (by simp [dictMem, dictLookup, h])
      · exact Or.inl h
      · exact Or.inr (by
          simp only [dictMem, dictLookup]
          by_cases h1 : x.1 = k
          · simp [h1]
          · simpa [h1, dictMem] using h)
    · rintro (h | h)
      · exact Or.inl (Or.inr h)
      · simp only [dictMem, dictLookup] at h
        by_cases h1 : x.1 = k
        · exact Or.inl (Or.inl h1)
        · simp only [if_neg h1] at h
          exact Or.inr h

theorem dictLookup_append_of_none {α : Type} (a b : List (String × α)) (k : String)
    (h : dictLookup a k = none) : dictLookup (a ++ b) k = dictLookup b k := by
  induction a with
  | nil => rfl
  | cons x t ih =>
    obtain ⟨x1, x2⟩ := x
    by_cases h1 : x1 = k
    · simp [dictLookup, h1] at h
    · simp only [dictLookup, if_neg h1] at h
      simpa [dictLookup, if_neg h1] using ih h

theorem stripLead_eq_some_iff (ps cs rest : List Char) :
    stripLead ps cs = some rest ↔ cs = ps ++ rest := by
  induction ps generalizing cs with
  | nil => simp [stripLead, eq_comm]
  | cons p ps ih =>
    cases cs with
    | nil => simp [stripLead]
    | cons c cs =>
      by_cases h : c = p
      · subst h
        simp [stripLead, ih]
      · simp [stripLead, if_neg h, h]

/-! ### Marker-environment lemmas -/

theorem envGet_envSet (e : MEnv) (k v k' : String) :
    envGet (envSet e k v) k' = if k = k' then some v else envGet e k' :=
  dictLookup_dictInsert e k v k'

theorem splitPlatform_eq_none (platform : String)
    (h : ∀ c ∈ platform.toList, c ≠ '_') : splitPlatform platform = none := by
  have hdrop : platform.toList.dropWhile notUnderscore = [] := by
    rw [List.dropWhile_eq_nil_iff]
    intro x hx
    simp [notUnderscore, h x hx]
  simp only [splitPlatform]
  rw [hdrop]

/-! ### Claim theorems -/

/-- C8: merging an empty wheel batch into any lockfile returns a
lockfile equal to the input, with the same info descriptor and the same
package map, for both the functional (`add_wheels_to_spec`) and the
in-place (`add_wheels`) entry points. -/
theorem merge_empty_batch_identity (disk : Disk) (fuel : Nat) (lock : PyodideLockSpec)
    (bp : Option (List String)) (url : String) (ig : Bool) :
    add_wheels_to_spec disk fuel lock [] bp url ig = .ok lock ∧
    add_wheels disk fuel lock [] bp url ig = (lock, none) :=
  ⟨rfl, rfl⟩

/-- C2: whenever a merge raises any error (incompatible archive,
unreadable metadata, missing dependency, path not under base, or fuel
exhaustion of the drain), the post-state of the original lockfile equals
its pre-state: no new packages and no modified fields are observable. -/
theorem add_wheels_error_atomicity (disk : Disk) (fuel : Nat) (self : PyodideLockSpec)
    (wfs : List (List String)) (bp : Option (List String)) (url : String) (ig : Bool)
    (post : PyodideLockSpec) (e : MergeError)
    (h : add_wheels disk fuel self wfs bp url ig = (post, some e)) : post = self := by
  unfold add_wheels at h
  split at h
  · simp [Prod.ext_iff] at h
  · split at h
    · simp [Prod.ext_iff] at h
      exact h.1.symm
    · split at h
      · simp [Prod.ext_iff] at h
        exact h.1.symm
      · split at h
        · simp [Prod.ext_iff] at h
          exact h.1.symm
        · simp [Prod.ext_iff] at h

/-- C2 witness: a concrete failing merge (the disk read fails) leaves
the concrete original lockfile intact. -/
theorem add_wheels_error_atomicity_witness :
    add_wheels diskEmpty 0 lock0 [wheelApath] none "" false
      = (lock0, some (.unreadableMetadata (pathStr wheelApath))) ∧
    lock0 = lock0 :=
  ⟨rfl, add_wheels_error_atomicity diskEmpty 0 lock0 [wheelApath] none "" false
    lock0 (.unreadableMetadata (pathStr wheelApath)) rfl⟩

/-- C9 counterexample: the claim says a change to the archive between
two merge invocations is seen by the second invocation.  With the
module-level `functools.cache`, the second invocation's read returns the
first invocation's cached metadata even though the disk now holds
different metadata. -/
theorem wheel_metadata_stale_counterexample :
    (two_merge_metadata_reads diskMeta1 diskMeta2 (pathStr wheelApath)).2 = some metaV1 ∧
    diskMeta2 (pathStr wheelApath) = some metaV2 ∧
    (two_merge_metadata_reads diskMeta1 diskMeta2 (pathStr wheelApath)).2
      ≠ diskMeta2 (pathStr wheelApath) := by
  refine ⟨rfl, rfl, ?_⟩
  intro h
  have h2 := congrArg (Option.map WheelMeta.version) h
  revert h2
  decide

/-- C9 amended: the metadata cache is keyed by the archive's absolute
path but scoped to the process, not to one merge invocation: the first
invocation reads fresh from disk, a second invocation in the same
process returns the first invocation's value for the same path no matter
how the disk changed, and reads of a different path still go to the
disk. -/
theorem wheel_metadata_process_cache (disk1 disk2 : String → Option WheelMeta)
    (path : String) :
    (two_merge_metadata_reads disk1 disk2 path).1 = disk1 path ∧
    (two_merge_metadata_reads disk1 disk2 path).2 = disk1 path ∧
    (∀ path2, path2 ≠ path →
      (wheel_metadata (wheel_metadata [] disk1 path).2 disk2 path2).1 = disk2 path2) := by
  refine ⟨rfl, ?_, ?_⟩
  · show (wheel_metadata (wheel_metadata [] disk1 path).2 disk2 path).1 = disk1 path
    simp [wheel_metadata, dictLookup, dictInsert]
  · intro path2 hne
    have hne2 : path ≠ path2 := fun h => hne h.symm
    simp [wheel_metadata, dictLookup, dictInsert, if_neg hne2]

/-- C9 witness for the amended theorem: concrete disks and a concrete
second path exercise all three conjuncts. -/
theorem wheel_metadata_process_cache_witness :
    (two_merge_metadata_reads diskMeta1 diskMeta2 (pathStr wheelApath)).1
      = diskMeta1 (pathStr wheelApath) ∧
    (wheel_metadata (wheel_metadata [] diskMeta1 (pathStr wheelApath)).2 diskMeta2
      (pathStr wheelBpath)).1 = diskMeta2 (pathStr wheelBpath) := by
  refine ⟨(wheel_metadata_process_cache diskMeta1 diskMeta2 (pathStr wheelApath)).1, ?_⟩
  exact (wheel_metadata_process_cache diskMeta1 diskMeta2 (pathStr wheelApath)).2.2
    (pathStr wheelBpath) (by decide)

/-- C10: when the platform identifier contains no underscore, the
derived marker environment keeps the baked-in defaults for
`sys_platform` and `platform_release`, while the interpreter-derived
keys are taken from the descriptor. -/
theorem marker_env_no_underscore_defaults (platform version arch python : String)
    (h : ∀ c ∈ platform.toList, c ≠ '_') :
    envGet (get_marker_environment platform version arch python) "sys_platform"
      = some "emscripten" ∧
    envGet (get_marker_environment platform version arch python) "platform_release"
      = some "3.1.45" ∧
    envGet (get_marker_environment platform version arch python) "python_version"
      = some (toString (vMajor python) ++ "." ++ toString (vMinor python)) ∧
    envGet (get_marker_environment platform version arch python) "python_full_version"
      = some python ∧
    envGet (get_marker_environment platform version arch python) "implementation_version"
      = some python ∧
    envGet (get_marker_environment platform version arch python) "platform_machine"
      = some arch := by
  have hsplit := splitPlatform_eq_none platform h
  unfold get_marker_environment
  rw [hsplit]
  refine ⟨?_, ?_, ?_, ?_, ?_, ?_⟩ <;>
    simp [envGet_envSet, PYODIDE_MARKER_ENV, envGet, dictLookup]

/-- C10 witness: the platform string `"emscripten"` has no underscore
and keeps both defaults. -/
theorem marker_env_no_underscore_defaults_witness :
    envGet (get_marker_environment "emscripten" "0.2.2" "wasm64" "3.12.1") "sys_platform"
      = some "emscripten" ∧
    envGet (get_marker_environment "emscripten" "0.2.2" "wasm64" "3.12.1") "platform_release"
      = some "3.1.45" ∧
    envGet (get_marker_environment "emscripten" "0.2.2" "wasm64" "3.12.1") "platform_machine"
      = some "wasm64" := by
  have hmain := marker_env_no_underscore_defaults "emscripten" "0.2.2" "wasm64" "3.12.1"
    (by decide)
  exact ⟨hmain.1, hmain.2.1, hmain.2.2.2.2.2⟩

/-- C5 counterexample: the code accepts a wheel whose only tag is
`py3x-none-any` (because `re.match` anchors only at the start of the
interpreter tag), while the claim's rule (b) — interpreter tag of the
form `py<major><minor-digits>` — rejects it, so the claimed
"if and only if" is false on this input. -/
theorem check_compat_claim_counterexample :
    check_wheel_compatible "/tmp/pkgx-1.0.0-py3x-none-any.whl" (some [tagPure3x]) info0
      = .ok () ∧
    claimAccepts info0 [tagPure3x] = false :=
  ⟨rfl, rfl⟩

/-! ### Compatibility-checker lemmas (claim C5) -/

theorem mem_takeWhile_sat {α : Type} (p : α → Bool) (l : List α) (c : α)
    (h : c ∈ l.takeWhile p) : p c = true := by
  induction l with
  | nil => simp [List.takeWhile] at h
  | cons a t ih =>
    cases hpa : p a
    · simp only [List.takeWhile, hpa] at h
      simp at h
    · simp only [List.takeWhile, hpa] at h
      rcases List.mem_cons.mp h with h1 | h1
      · subst h1
        exact hpa
      · exact ih h1

theorem head_dropWhile_not {α : Type} (p : α → Bool) (l : List α) (c : α)
    (h : (l.dropWhile p).head? = some c) : p c = false := by
  induction l with
  | nil => simp [List.dropWhile] at h
  | cons a t ih =>
    cases hpa : p a
    · simp only [List.dropWhile, hpa] at h
      simp at h
      rw [← h]
      exact hpa
    · simp only [List.dropWhile, hpa] at h
      exact ih h

theorem takeWhile_append_all {α : Type} (p : α → Bool) (ds rest : List α)
    (h1 : ∀ c ∈ ds, p c = true) (h2 : ∀ c, rest.head? = some c → p c = false) :
    (ds ++ rest).takeWhile p = ds := by
  induction ds with
  | nil =>
    cases rest with
    | nil => rfl
    | cons r t =>
      have hr := h2 r rfl
      simp [List.takeWhile, hr]
  | cons d ds ih =>
    have hd := h1 d (List.mem_cons_self _ _)
    simp [List.takeWhile, hd, ih (fun c hc => h1 c (List.mem_cons_of_mem _ hc))]

theorem pyTagOk_iff (major minor : Nat) (interp : String) :
    pyTagOk major minor interp = true ↔
      ∃ ds rest : List Char,
        interp.toList = ("py" ++ toString major).toList ++ ds ++ rest ∧
        (∀ c ∈ ds, c.isDigit = true) ∧
        (∀ c, rest.head? = some c → c.isDigit = false) ∧
        (ds = [] ∨ digitsVal ds 0 ≤ minor) := by
  unfold pyTagOk
  cases hstrip : stripLead ("py" ++ toString major).toList interp.toList with
  | none =>
    simp only [hstrip]
    constructor
    · intro h
      cases h
    · rintro ⟨ds, rest, heq, -, -, -⟩
      have h2 : stripLead ("py" ++ toString major).toList interp.toList = some (ds ++ rest) :=
        (stripLead_eq_some_iff _ _ _).mpr (by rw [heq, List.append_assoc])
      rw [hstrip] at h2
      cases h2
  | some r =>
    simp only [hstrip, Bool.or_eq_true, List.isEmpty_iff, decide_eq_true_eq]
    constructor
    · intro h
      refine ⟨r.takeWhile Char.isDigit, r.dropWhile Char.isDigit, ?_, ?_, ?_, ?_⟩
      · have hr := (stripLead_eq_some_iff _ _ r).mp hstrip
        rw [hr, List.append_assoc, List.takeWhile_append_dropWhile]
      · exact fun c hc => mem_takeWhile_sat _ _ _ hc
      · exact fun c hc => head_dropWhile_not _ _ _ hc
      · exact h
    · rintro ⟨ds, rest, heq, hds, hrest, hval⟩
      have h1 := (stripLead_eq_some_iff _ _ r).mp hstrip
      rw [heq, List.append_assoc] at h1
      have hr : r = ds ++ rest := List.append_cancel_left h1.symm
      subst hr
      rw [takeWhile_append_all Char.isDigit ds rest hds hrest]
      exact hval

theorem tagOk_iff (info : InfoSpec) (t : WheelTag) :
    tagOk info t = true ↔
      ExactTagSpec info t ∨ PureTagAmended (vMajor info.python) (vMinor info.python) t := by
  unfold tagOk ExactTagSpec PureTagAmended
  rw [Bool.or_eq_true]
  constructor
  · rintro (h | h)
    · simp only [Bool.and_eq_true, decide_eq_true_eq] at h
      exact Or.inl ⟨h.1.2, h.1.1, h.2⟩
    · simp only [Bool.and_eq_true, decide_eq_true_eq] at h
      exact Or.inr ⟨h.1.1, h.1.2, (pyTagOk_iff _ _ _).mp h.2⟩
  · rintro (⟨h1, h2, h3⟩ | ⟨h1, h2, h3⟩)
    · exact Or.inl (by simp [h1, h2, h3])
    · refine Or.inr (by
        simp only [Bool.and_eq_true, decide_eq_true_eq]
        exact ⟨⟨h1, h2⟩, (pyTagOk_iff _ _ _).mpr h3⟩)

/-- C5 (amended): the compatibility check accepts exactly when some build
tag satisfies the exact binary rule or the amended pure-build rule — ABI
`"none"`, platform `"any"`, interpreter *beginning with* `py<major>`
whose following digit run is empty or at most the target minor version
(trailing non-digit characters are not examined, as `re.match` anchors
only at the start) — and otherwise it returns the error carrying the
expected interpreter/abi tag and platform tag. -/
theorem check_compat_amended_iff (fname : String) (info : InfoSpec) (tags : List WheelTag) :
    (check_wheel_compatible fname (some tags) info = .ok () ↔
      ∃ t ∈ tags, ExactTagSpec info t ∨
        PureTagAmended (vMajor info.python) (vMinor info.python) t) ∧
    (check_wheel_compatible fname (some tags) info = .ok () ∨
      check_wheel_compatible fname (some tags) info
        = .error (.incompatible fname (pythonBinaryAbi info.python) (targetPlatformTag info))) := by
  unfold check_wheel_compatible
  cases hany : tags.any (tagOk info) with
  | false =>
    simp only [hany, Bool.false_eq_true, if_false]
    refine ⟨?_, Or.inr trivial⟩
    constructor
    · intro h
      cases h
    · rintro ⟨t, ht, hspec⟩
      have : tags.any (tagOk info) = true :=
        List.any_eq_true.mpr ⟨t, ht, (tagOk_iff info t).mpr hspec⟩
      rw [hany] at this
      cases this
  | true =>
    simp only [hany, if_true]
    refine ⟨?_, Or.inl trivial⟩
    constructor
    · intro _
      rcases List.any_eq_true.mp hany with ⟨t, ht, htok⟩
      exact ⟨t, ht, (tagOk_iff info t).mp htok⟩
    · intro _
      trivial

/-- C5 witness: the exact binary tag `cp311-cp311-emscripten_3_1_45_wasm32`
is accepted for `info0` and the amended acceptance condition holds. -/
theorem check_compat_amended_iff_witness :
    ∃ t ∈ [tagExact0], ExactTagSpec info0 t ∨
      PureTagAmended (vMajor info0.python) (vMinor info0.python) t :=
  (check_compat_amended_iff "/tmp/pkga-1.0.0-cp311-cp311-emscripten_3_1_45_wasm32.whl"
    info0 [tagExact0]).1.mp rfl

/-! ### Path-normalization lemmas (claim C7) -/

theorem set_package_paths_entries (bp : List String) (url : String)
    (pkgs : List (String × PackageSpec)) :
    ∀ pkgs', set_package_paths bp url pkgs = .ok pkgs' →
    ∀ kp' ∈ pkgs', ∃ kp, kp ∈ pkgs ∧ kp'.1 = kp.1 ∧
      ∃ rel, relTo (pathOfStr kp.2.file_name) bp = some rel ∧
        kp'.2 = { kp.2 with file_name := url ++ relStr rel } := by
  induction pkgs with
  | nil =>
    intro pkgs' h kp' hkp'
    simp only [set_package_paths, Except.ok.injEq] at h
    subst h
    simp at hkp'
  | cons hd tl ih =>
    intro pkgs' h kp' hkp'
    obtain ⟨k, p⟩ := hd
    simp only [set_package_paths] at h
    cases hrel : relTo (pathOfStr p.file_name) bp with
    | none =>
      rw [hrel] at h
      cases h
    | some rel =>
      rw [hrel] at h
      cases htl : set_package_paths bp url tl with
      | error e =>
        rw [htl] at h
        cases h
      | ok rest2 =>
        rw [htl] at h
        simp only [Except.ok.injEq] at h
        subst h
        rcases List.mem_cons.mp hkp' with h1 | h1
        · exact ⟨(k, p), List.mem_cons_self _ _, by simp [h1],
            rel, hrel, by simp [h1]⟩
        · obtain ⟨kp, hkp, h2⟩ := ih rest2 htl kp' h1
          exact ⟨kp, List.mem_cons_of_mem _ hkp, h2⟩

theorem set_package_paths_error (bp : List String) (url : String)
    (pkgs : List (String × PackageSpec)) :
    ∀ e, set_package_paths bp url pkgs = .error e →
    ∃ kp, kp ∈ pkgs ∧ relTo (pathOfStr kp.2.file_name) bp = none ∧
      e = .pathNotUnderBase kp.2.file_name := by
  induction pkgs with
  | nil =>
    intro e h
    simp [set_package_paths] at h
  | cons hd tl ih =>
    intro e h
    obtain ⟨k, p⟩ := hd
    simp only [set_package_paths] at h
    cases hrel : relTo (pathOfStr p.file_name) bp with
    | none =>
      rw [hrel] at h
      simp only [Except.error.injEq] at h
      exact ⟨(k, p), List.mem_cons_self _ _, hrel, h.symm⟩
    | some rel =>
      rw [hrel] at h
      cases htl : set_package_paths bp url tl with
      | error e2 =>
        rw [htl] at h
        simp only [Except.error.injEq] at h
        obtain ⟨kp, hkp, h2⟩ := ih e2 htl
        exact ⟨kp, List.mem_cons_of_mem _ hkp, h2.1, h ▸ h2.2⟩
      | ok rest2 =>
        rw [htl] at h
        cases h

theorem add_wheels_to_spec_ok_decomp (disk : Disk) (fuel : Nat) (lock : PyodideLockSpec)
    (wfs : List (List String)) (bp : Option (List String)) (url : String) (ig : Bool)
    (res : PyodideLockSpec) (hne : wfs ≠ [])
    (h : add_wheels_to_spec disk fuel lock wfs bp url ig = .ok res) :
    ∃ np np2 np3,
      buildNewPackages disk lock.info wfs = .ok np ∧
      fix_new_package_deps disk fuel lock np ig = .ok np2 ∧
      set_package_paths (defaultBasePath wfs bp) url np2 = .ok np3 ∧
      res = { lock with packages := dictUnion lock.packages np3 } := by
  unfold add_wheels_to_spec at h
  rw [if_neg (by simp [List.isEmpty_iff, hne])] at h
  cases h1 : buildNewPackages disk lock.info wfs with
  | error e =>
    rw [h1] at h
    cases h
  | ok np =>
    rw [h1] at h
    dsimp only at h
    cases h2 : fix_new_package_deps disk fuel lock np ig with
    | error e =>
      rw [h2] at h
      cases h
    | ok np2 =>
      rw [h2] at h
      dsimp only at h
      cases h3 : set_package_paths (defaultBasePath wfs bp) url np2 with
      | error e =>
        rw [h3] at h
        cases h
      | ok np3 =>
        rw [h3] at h
        simp only [Except.ok.injEq] at h
        exact ⟨np, np2, np3, rfl, h2, h3, h.symm⟩

/-- C7: in a successful merge every new package's final location is the
base URL concatenated with its absolute path taken relative to the base
path (conjuncts 1 and 3); a package whose path is not under the base
path makes the path-normalization stage fail with the error naming it
(conjunct 2); and a merge called without a base path behaves exactly as
one called with the parent directory of the first wheel (conjunct 4). -/
theorem merge_path_normalization (disk : Disk) (fuel : Nat) (lock : PyodideLockSpec)
    (w : List String) (ws : List (List String)) (bp : List String)
    (url : String) (ig : Bool) (pkgs pkgs' : List (String × PackageSpec))
    (e : MergeError) (res : PyodideLockSpec) :
    (set_package_paths bp url pkgs = .ok pkgs' →
      ∀ kp' ∈ pkgs', ∃ kp, kp ∈ pkgs ∧ kp'.1 = kp.1 ∧
        ∃ rel, relTo (pathOfStr kp.2.file_name) bp = some rel ∧
          kp'.2 = { kp.2 with file_name := url ++ relStr rel }) ∧
    (set_package_paths bp url pkgs = .error e →
      ∃ kp, kp ∈ pkgs ∧ relTo (pathOfStr kp.2.file_name) bp = none ∧
        e = .pathNotUnderBase kp.2.file_name) ∧
    (add_wheels_to_spec disk fuel lock (w :: ws) (some bp) url ig = .ok res →
      ∃ np np2 np3,
        buildNewPackages disk lock.info (w :: ws) = .ok np ∧
        fix_new_package_deps disk fuel lock np ig = .ok np2 ∧
        set_package_paths bp url np2 = .ok np3 ∧
        res = { lock with packages := dictUnion lock.packages np3 }) ∧
    (add_wheels_to_spec disk fuel lock (w :: ws) none url ig
      = add_wheels_to_spec disk fuel lock (w :: ws) (some w.dropLast) url ig) := by
  refine ⟨set_package_paths_entries bp url pkgs pkgs', set_package_paths_error bp url pkgs e,
    ?_, rfl⟩
  intro h
  exact add_wheels_to_spec_ok_decomp disk fuel lock (w :: ws) (some bp) url ig res
    (by simp) h

/-- C7 witness: the example wheel normalizes to its filename relative to
`/tmp`, a wheel outside the base fails naming its path, and the example
merge decomposes through the three stages. -/
theorem merge_path_normalization_witness :
    (∃ kp, kp ∈ [("pkga", draftA)] ∧ ("pkga", draftAnorm).1 = kp.1 ∧
      ∃ rel, relTo (pathOfStr kp.2.file_name) ["tmp"] = some rel ∧
        draftAnorm = { kp.2 with file_name := "" ++ relStr rel }) ∧
    (∃ kp, kp ∈ [("pkga", draftABad)] ∧ relTo (pathOfStr kp.2.file_name) ["tmp"] = none ∧
      MergeError.pathNotUnderBase draftABad.file_name
        = .pathNotUnderBase kp.2.file_name) ∧
    (∃ np np2 np3,
      buildNewPackages disk0 lock0.info [wheelApath, wheelBpath] = .ok np ∧
      fix_new_package_deps disk0 0 lock0 np false = .ok np2 ∧
      set_package_paths ["tmp"] "" np2 = .ok np3 ∧
      res0 = { lock0 with packages := dictUnion lock0.packages np3 }) := by
  refine ⟨?_, ?_, ?_⟩
  · exact (merge_path_normalization disk0 0 lock0 wheelApath [] ["tmp"] "" false
      [("pkga", draftA)] [("pkga", draftAnorm)] .fuelExhausted lock0).1 rfl
      ("pkga", draftAnorm) (by simp)
  · exact (merge_path_normalization disk0 0 lock0 wheelApath [] ["tmp"] "" false
      [("pkga", draftABad)] [] (.pathNotUnderBase draftABad.file_name) lock0).2.1 rfl
  · exact (merge_path_normalization disk0 0 lock0 wheelApath [wheelBpath] ["tmp"] "" false
      [] [] .fuelExhausted res0).2.2.1 rfl

/-! ### Closure-invariant lemmas (claim C1) -/

theorem contains_iff_mem (l : List String) (x : String) :
    l.contains x = true ↔ x ∈ l := by
  induction l with
  | nil => simp
  | cons a t ih =>
    by_cases hax : x = a
    · subst hax
      simp [List.contains_cons]
    · have hbeq : (x == a) = false := beq_false_of_ne hax
      simp [List.contains_cons, hbeq, ih, hax]

theorem processReqs_deps_sound (env : MEnv) (newNames : List String)
    (lockPkgs : List (String × PackageSpec)) (ignore : Bool) :
    ∀ reqs d ex, processReqs env newNames lockPkgs ignore reqs = .ok (d, ex) →
    ∀ n ∈ d, newNames.contains n = true ∨ dictMem lockPkgs n = true ∨ ignore = true := by
  intro reqs
  induction reqs with
  | nil =>
    intro d ex h n hn
    simp only [processReqs, Except.ok.injEq, Prod.mk.injEq] at h
    rw [← h.1] at hn
    cases hn
  | cons r rest ih =>
    intro d ex h n hn
    simp only [processReqs] at h
    by_cases hskip : (match r.marker with | some m => !(m env) | none => false) = true
    · rw [if_pos hskip] at h
      exact ih d ex h n hn
    · rw [if_neg hskip] at h
      by_cases hres : (newNames.contains (canonicalize_name r.name)
          || dictMem lockPkgs (canonicalize_name r.name)) = true
      · rw [if_pos hres] at h
        cases hrec : processReqs env newNames lockPkgs ignore rest with
        | error e =>
          rw [hrec] at h
          cases h
        | ok pr =>
          obtain ⟨d2, ex2⟩ := pr
          rw [hrec] at h
          simp only [Except.ok.injEq, Prod.mk.injEq] at h
          rw [← h.1] at hn
          rcases List.mem_cons.mp hn with h1 | h1
          · subst h1
            have hres2 : newNames.contains (canonicalize_name r.name) = true
                ∨ dictMem lockPkgs (canonicalize_name r.name) = true := by
              simpa using hres
            rcases hres2 with h2 | h2
            · exact Or.inl h2
            · exact Or.inr (Or.inl h2)
          · exact ih d2 ex2 hrec n h1
      · rw [if_neg hres] at h
        by_cases hig : ignore = true
        · rw [if_pos hig] at h
          cases hrec : processReqs env newNames lockPkgs ignore rest with
          | error e =>
            rw [hrec] at h
            cases h
          | ok pr =>
            obtain ⟨d2, ex2⟩ := pr
            rw [hrec] at h
            simp only [Except.ok.injEq, Prod.mk.injEq] at h
            rw [← h.1] at hn
            rcases List.mem_cons.mp hn with h1 | h1
            · exact Or.inr (Or.inr hig)
            · exact ih d2 ex2 hrec n h1
        · rw [if_neg hig] at h
          cases h

theorem mainLoop_sound (disk : Disk) (env : MEnv) (newNames : List String)
    (lockPkgs : List (String × PackageSpec)) (ignore : Bool) :
    ∀ pkgs pkgs2 wl, mainLoop disk env newNames lockPkgs ignore pkgs = .ok (pkgs2, wl) →
    dictKeys pkgs2 = dictKeys pkgs ∧
    (∀ kp ∈ pkgs2, ∀ n ∈ kp.2.depends,
      newNames.contains n = true ∨ dictMem lockPkgs n = true ∨ ignore = true) := by
  intro pkgs
  induction pkgs with
  | nil =>
    intro pkgs2 wl h
    simp only [mainLoop, Except.ok.injEq, Prod.mk.injEq] at h
    rw [← h.1]
    exact ⟨rfl, by intro kp hkp; cases hkp⟩
  | cons hd tl ih =>
    intro pkgs2 wl h
    obtain ⟨k, p⟩ := hd
    simp only [mainLoop] at h
    cases hdisk : disk p.file_name with
    | none =>
      rw [hdisk] at h
      cases h
    | some wd =>
      rw [hdisk] at h
      dsimp only at h
      cases hmeta : wd.meta with
      | none =>
        rw [hmeta] at h
        cases h
      | some md =>
        rw [hmeta] at h
        dsimp only at h
        cases hpr : processReqs env newNames lockPkgs ignore md.requires_dist with
        | error e =>
          rw [hpr] at h
          cases h
        | ok pr1 =>
          obtain ⟨deps, extras⟩ := pr1
          rw [hpr] at h
          dsimp only at h
          cases hml : mainLoop disk env newNames lockPkgs ignore tl with
          | error e =>
            rw [hml] at h
            cases h
          | ok pr2 =>
            obtain ⟨rest2, extras2⟩ := pr2
            rw [hml] at h
            dsimp only at h
            simp only [Except.ok.injEq, Prod.mk.injEq] at h
            obtain ⟨hkeys, hdeps⟩ := ih rest2 extras2 hml
            rw [← h.1]
            constructor
            · rw [dictKeys_cons, dictKeys_cons, hkeys]
            · intro kp hkp n hn
              rcases List.mem_cons.mp hkp with h1 | h1
              · rw [h1] at hn
                exact processReqs_deps_sound env newNames lockPkgs ignore
                  md.requires_dist deps extras hpr n hn
              · exact hdeps kp h1 n hn

theorem reqScanExtra_sound (envE : MEnv) (newNames : List String)
    (lockPkgs : List (String × PackageSpec)) (ignore : Bool) :
    ∀ reqs deps out deps' out',
    reqScanExtra envE newNames lockPkgs ignore reqs deps out = .ok (deps', out') →
    ∀ n ∈ deps', n ∈ deps ∨ newNames.contains n = true ∨ dictMem lockPkgs n = true
      ∨ ignore = true := by
  intro reqs
  induction reqs with
  | nil =>
    intro deps out deps' out' h n hn
    simp only [reqScanExtra, Except.ok.injEq, Prod.mk.injEq] at h
    rw [← h.1] at hn
    exact Or.inl hn
  | cons r rest ih =>
    intro deps out deps' out' h n hn
    simp only [reqScanExtra] at h
    by_cases h1 : deps.contains (canonicalize_name r.name) = true
    · rw [if_pos h1] at h
      exact ih _ _ _ _ h n hn
    · rw [if_neg h1] at h
      cases hm : r.marker with
      | none =>
        rw [hm] at h
        dsimp only at h
        exact ih _ _ _ _ h n hn
      | some m =>
        rw [hm] at h
        dsimp only at h
        by_cases h2 : m envE = true
        · rw [if_pos h2] at h
          by_cases h3 : (newNames.contains (canonicalize_name r.name)
              || dictMem lockPkgs (canonicalize_name r.name)) = true
          · rw [if_pos h3] at h
            rcases ih _ _ _ _ h n hn with h4 | h4
            · rcases List.mem_append.mp h4 with h5 | h5
              · exact Or.inl h5
              · have h6 : n = canonicalize_name r.name := by simpa using h5
                subst h6
                have h32 : newNames.contains (canonicalize_name r.name) = true
                    ∨ dictMem lockPkgs (canonicalize_name r.name) = true := by
                  simpa using h3
                rcases h32 with h7 | h7
                · exact Or.inr (Or.inl h7)
                · exact Or.inr (Or.inr (Or.inl h7))
            · exact Or.inr h4
          · rw [if_neg h3] at h
            by_cases h5 : ignore = true
            · rw [if_pos h5] at h
              rcases ih _ _ _ _ h n hn with h4 | h4
              · rcases List.mem_append.mp h4 with h6 | h6
                · exact Or.inl h6
                · exact Or.inr (Or.inr (Or.inr h5))
              · exact Or.inr h4
            · rw [if_neg h5] at h
              cases h
        · rw [if_neg h2] at h
          exact ih _ _ _ _ h n hn

theorem extrasLoop_sound (env : MEnv) (newNames : List String)
    (lockPkgs : List (String × PackageSpec)) (ignore : Bool) (reqs : List Requirement) :
    ∀ extras deps out deps' out',
    extrasLoop env newNames lockPkgs ignore reqs extras deps out = .ok (deps', out') →
    ∀ n ∈ deps', n ∈ deps ∨ newNames.contains n = true ∨ dictMem lockPkgs n = true
      ∨ ignore = true := by
  intro extras
  induction extras with
  | nil =>
    intro deps out deps' out' h n hn
    simp only [extrasLoop, Except.ok.injEq, Prod.mk.injEq] at h
    rw [← h.1] at hn
    exact Or.inl hn
  | cons e es ih =>
    intro deps out deps' out' h n hn
    simp only [extrasLoop] at h
    cases hscan : reqScanExtra (envSet env "extra" e) newNames lockPkgs ignore reqs deps out with
    | error er =>
      rw [hscan] at h
      cases h
    | ok pr =>
      obtain ⟨d2, o2⟩ := pr
      rw [hscan] at h
      dsimp only at h
      rcases ih _ _ _ _ h n hn with h1 | h1
      · exact reqScanExtra_sound (envSet env "extra" e) newNames lockPkgs ignore reqs
          deps out d2 o2 hscan n h1
      · exact Or.inr h1

theorem fix_extra_dep_sound (disk : Disk) (env : MEnv)
    (lockPkgs : List (String × PackageSpec)) (er : Requirement)
    (pkgs : List (String × PackageSpec)) (ignore : Bool)
    (pkgs2 : List (String × PackageSpec)) (out : List Requirement)
    (h : fix_extra_dep disk env lockPkgs er pkgs ignore = .ok (pkgs2, out)) :
    dictKeys pkgs2 = dictKeys pkgs ∧
    (ignore = false → DepsOkN (dictKeys pkgs) lockPkgs pkgs →
      DepsOkN (dictKeys pkgs) lockPkgs pkgs2) := by
  unfold fix_extra_dep at h
  dsimp only at h
  cases hlook : dictLookup pkgs (canonicalize_name er.name) with
  | none =>
    rw [hlook] at h
    simp only [Except.ok.injEq, Prod.mk.injEq] at h
    rw [← h.1]
    exact ⟨rfl, fun _ hok => hok⟩
  | some package =>
    rw [hlook] at h
    dsimp only at h
    cases hdisk : disk package.file_name with
    | none =>
      rw [hdisk] at h
      cases h
    | some wd =>
      rw [hdisk] at h
      dsimp only at h
      cases hmeta : wd.meta with
      | none =>
        rw [hmeta] at h
        cases h
      | some md =>
        rw [hmeta] at h
        dsimp only at h
        cases hloop : extrasLoop env (dictKeys pkgs) lockPkgs ignore md.requires_dist
            er.extras package.depends [] with
        | error e2 =>
          rw [hloop] at h
          cases h
        | ok pr =>
          obtain ⟨our_depends, out2⟩ := pr
          rw [hloop] at h
          dsimp only at h
          simp only [Except.ok.injEq, Prod.mk.injEq] at h
          rw [← h.1]
          constructor
          · exact dictKeys_dictInsert_of_mem pkgs _ _ package hlook
          · intro hig hok kp hkp n hn
            rcases entry_mem_dictInsert _ _ _ _ hkp with h1 | h1
            · exact hok kp h1 n hn
            · rw [h1] at hn
              dsimp only at hn
              rcases extrasLoop_sound env (dictKeys pkgs) lockPkgs ignore md.requires_dist
                  er.extras package.depends [] our_depends out2 hloop n hn with h2 | h2 | h2 | h2
              · exact hok (canonicalize_name er.name, package)
                  (mem_of_dictLookup pkgs _ _ hlook) n h2
              · exact Or.inl h2
              · exact Or.inr h2
              · rw [hig] at h2
                cases h2

theorem drain_sound (disk : Disk) (env : MEnv)
    (lockPkgs : List (String × PackageSpec)) (ignore : Bool) :
    ∀ fuel pkgs wl pkgs2, drain disk env lockPkgs ignore fuel pkgs wl = .ok pkgs2 →
    dictKeys pkgs2 = dictKeys pkgs ∧
    (ignore = false → DepsOkN (dictKeys pkgs) lockPkgs pkgs →
      DepsOkN (dictKeys pkgs) lockPkgs pkgs2) := by
  intro fuel
  induction fuel with
  | zero =>
    intro pkgs wl pkgs2 h
    unfold drain at h
    cases hl : wl.getLast? with
    | none =>
      rw [hl] at h
      simp only [Except.ok.injEq] at h
      rw [← h]
      exact ⟨rfl, fun _ hok => hok⟩
    | some er =>
      rw [hl] at h
      cases h
  | succ f ih =>
    intro pkgs wl pkgs2 h
    unfold drain at h
    cases hl : wl.getLast? with
    | none =>
      rw [hl] at h
      simp only [Except.ok.injEq] at h
      rw [← h]
      exact ⟨rfl, fun _ hok => hok⟩
    | some er =>
      rw [hl] at h
      dsimp only at h
      cases hf : fix_extra_dep disk env lockPkgs er pkgs ignore with
      | error e =>
        rw [hf] at h
        cases h
      | ok pr =>
        obtain ⟨pkgs', out⟩ := pr
        rw [hf] at h
        dsimp only at h
        obtain ⟨hk1, hd1⟩ := fix_extra_dep_sound disk env lockPkgs er pkgs ignore pkgs' out hf
        obtain ⟨hk2, hd2⟩ := ih pkgs' (wl.dropLast ++ out) pkgs2 h
        refine ⟨hk2.trans hk1, fun hig hok => ?_⟩
        have hok' := hd1 hig hok
        rw [← hk1] at hok' ⊢
        exact hd2 hig hok'

theorem set_package_paths_keys (bp : List String) (url : String) :
    ∀ pkgs pkgs', set_package_paths bp url pkgs = .ok pkgs' →
    dictKeys pkgs' = dictKeys pkgs := by
  intro pkgs
  induction pkgs with
  | nil =>
    intro pkgs' h
    simp only [set_package_paths, Except.ok.injEq] at h
    rw [← h]
  | cons hd tl ih =>
    intro pkgs' h
    obtain ⟨k, p⟩ := hd
    simp only [set_package_paths] at h
    cases hrel : relTo (pathOfStr p.file_name) bp with
    | none =>
      rw [hrel] at h
      cases h
    | some rel =>
      rw [hrel] at h
      cases htl : set_package_paths bp url tl with
      | error e =>
        rw [htl] at h
        cases h
      | ok rest2 =>
        rw [htl] at h
        simp only [Except.ok.injEq] at h
        rw [← h, dictKeys_cons, dictKeys_cons, ih rest2 htl]

theorem fix_new_package_deps_sound (disk : Disk) (fuel : Nat) (lock : PyodideLockSpec)
    (np np2 : List (String × PackageSpec)) (ignore : Bool)
    (h : fix_new_package_deps disk fuel lock np ignore = .ok np2) :
    dictKeys np2 = dictKeys np ∧
    (ignore = false → DepsOkN (dictKeys np) lock.packages np2) := by
  unfold fix_new_package_deps at h
  dsimp only at h
  cases hml : mainLoop disk
      (get_marker_environment lock.info.platform lock.info.version lock.info.arch
        lock.info.python)
      (dictKeys np) lock.packages ignore np with
  | error e =>
    rw [hml] at h
    cases h
  | ok pr =>
    obtain ⟨pkgs, wl⟩ := pr
    rw [hml] at h
    dsimp only at h
    obtain ⟨hk1, hd1⟩ := mainLoop_sound _ _ _ _ _ np pkgs wl hml
    obtain ⟨hk2, hd2⟩ := drain_sound _ _ _ _ fuel pkgs wl np2 h
    refine ⟨hk2.trans hk1, fun hig => ?_⟩
    have hok : DepsOkN (dictKeys pkgs) lock.packages pkgs := by
      intro kp hkp n hn
      rcases hd1 kp hkp n hn with h1 | h1 | h1
      · rw [hk1]
        exact Or.inl h1
      · exact Or.inr h1
      · rw [hig] at h1
        cases h1
    have := hd2 hig (by rw [hk1] at hok ⊢; exact hok)
    rw [hk1] at this
    exact this

/-- C1: for every merge that completes without error with the
ignore-missing-dependencies override disabled, if every dependency name
in the input lockfile is a key of its package map, then every name in
the `depends` list of every package of the result (pre-existing and
newly added) is a key of the result's package map. -/
theorem merge_closure_invariant (disk : Disk) (fuel : Nat) (lock : PyodideLockSpec)
    (wfs : List (List String)) (bp : Option (List String)) (url : String)
    (res : PyodideLockSpec)
    (hin : ∀ kp ∈ lock.packages, ∀ n ∈ kp.2.depends, dictMem lock.packages n = true)
    (h : add_wheels_to_spec disk fuel lock wfs bp url false = .ok res) :
    ∀ kp ∈ res.packages, ∀ n ∈ kp.2.depends, dictMem res.packages n = true := by
  cases wfs with
  | nil =>
    simp only [add_wheels_to_spec, List.isEmpty_nil, if_true, Except.ok.injEq] at h
    rw [← h]
    exact hin
  | cons w ws =>
    obtain ⟨np, np2, np3, h1, h2, h3, hres⟩ :=
      add_wheels_to_spec_ok_decomp disk fuel lock (w :: ws) bp url false res (by simp) h
    obtain ⟨hkfix, hdfix⟩ := fix_new_package_deps_sound disk fuel lock np np2 false h2
    have hok2 : DepsOkN (dictKeys np) lock.packages np2 := hdfix rfl
    have hkeys3 : dictKeys np3 = dictKeys np := by
      rw [set_package_paths_keys _ _ np2 np3 h3, hkfix]
    have hok3 : DepsOkN (dictKeys np) lock.packages np3 := by
      intro kp hkp n hn
      obtain ⟨kp0, hkp0, -, rel, -, hval⟩ :=
        set_package_paths_entries _ _ np2 np3 h3 kp hkp
      rw [hval] at hn
      exact hok2 kp0 hkp0 n hn
    subst hres
    intro kp hkp n hn
    simp only at hkp hn ⊢
    rcases entry_mem_dictUnion np3 lock.packages kp hkp with hold | hnew
    · exact (dictMem_dictUnion np3 lock.packages n).mpr (Or.inl (hin kp hold n hn))
    · rcases hok3 kp hnew n hn with hc | hc
      · refine (dictMem_dictUnion np3 lock.packages n).mpr (Or.inr ?_)
        rw [dictMem_iff_keys, hkeys3]
        exact (contains_iff_mem _ _).mp hc
      · exact (dictMem_dictUnion np3 lock.packages n).mpr (Or.inl hc)

/-- C1 witness: in the merged example lockfile, the dependency `pkgb`
recorded for `pkga` is a key of the result's package map. -/
theorem merge_closure_invariant_witness : dictMem res0.packages "pkgb" = true :=
  merge_closure_invariant disk0 0 lock0 [wheelApath, wheelBpath] none "" res0
    (by intro kp hkp; simp [lock0] at hkp) rfl ("pkga", draftAnorm) (by decide)
    "pkgb" (by decide)

/-! ### Extras-expansion lemmas (claim C3) -/

theorem reqScanExtra_mono (envE : MEnv) (newNames : List String)
    (lockPkgs : List (String × PackageSpec)) (ignore : Bool) :
    ∀ reqs deps out deps' out',
    reqScanExtra envE newNames lockPkgs ignore reqs deps out = .ok (deps', out') →
    ∀ x ∈ deps, x ∈ deps' := by
  intro reqs
  induction reqs with
  | nil =>
    intro deps out deps' out' h x hx
    simp only [reqScanExtra, Except.ok.injEq, Prod.mk.injEq] at h
    rw [← h.1]
    exact hx
  | cons r rest ih =>
    intro deps out deps' out' h x hx
    simp only [reqScanExtra] at h
    by_cases h1 : deps.contains (canonicalize_name r.name) = true
    · rw [if_pos h1] at h
      exact ih _ _ _ _ h x hx
    · rw [if_neg h1] at h
      cases hm : r.marker with
      | none =>
        rw [hm] at h
        dsimp only at h
        exact ih _ _ _ _ h x hx
      | some m =>
        rw [hm] at h
        dsimp only at h
        by_cases h2 : m envE = true
        · rw [if_pos h2] at h
          by_cases h3 : (newNames.contains (canonicalize_name r.name)
              || dictMem lockPkgs (canonicalize_name r.name)) = true
          · rw [if_pos h3] at h
            exact ih _ _ _ _ h x (List.mem_append_left _ hx)
          · rw [if_neg h3] at h
            by_cases h5 : ignore = true
            · rw [if_pos h5] at h
              exact ih _ _ _ _ h x (List.mem_append_left _ hx)
            · rw [if_neg h5] at h
              cases h
        · rw [if_neg h2] at h
          exact ih _ _ _ _ h x hx

theorem reqScanExtra_hit (envE : MEnv) (newNames : List String)
    (lockPkgs : List (String × PackageSpec)) (ignore : Bool) :
    ∀ reqs deps out deps' out',
    reqScanExtra envE newNames lockPkgs ignore reqs deps out = .ok (deps', out') →
    ∀ r ∈ reqs, ∀ m, r.marker = some m → m envE = true →
    canonicalize_name r.name ∈ deps' := by
  intro reqs
  induction reqs with
  | nil =>
    intro deps out deps' out' h r hr
    cases hr
  | cons r0 rest ih =>
    intro deps out deps' out' h r hr m hm hmv
    simp only [reqScanExtra] at h
    by_cases h1 : deps.contains (canonicalize_name r0.name) = true
    · rw [if_pos h1] at h
      rcases List.mem_cons.mp hr with h0 | h0
      · subst h0
        exact reqScanExtra_mono envE newNames lockPkgs ignore rest deps out deps' out' h
          (canonicalize_name r.name) ((contains_iff_mem _ _).mp h1)
      · exact ih _ _ _ _ h r h0 m hm hmv
    · rw [if_neg h1] at h
      cases hm0 : r0.marker with
      | none =>
        rw [hm0] at h
        dsimp only at h
        rcases List.mem_cons.mp hr with h0 | h0
        · subst h0
          rw [hm0] at hm
          cases hm
        · exact ih _ _ _ _ h r h0 m hm hmv
      | some m0 =>
        rw [hm0] at h
        dsimp only at h
        by_cases h2 : m0 envE = true
        · rw [if_pos h2] at h
          by_cases h3 : (newNames.contains (canonicalize_name r0.name)
              || dictMem lockPkgs (canonicalize_name r0.name)) = true
          · rw [if_pos h3] at h
            rcases List.mem_cons.mp hr with h0 | h0
            · subst h0
              exact reqScanExtra_mono envE newNames lockPkgs ignore rest _ _ deps' out' h
                (canonicalize_name r.name)
                (List.mem_append_right _ (List.mem_singleton.mpr rfl))
            · exact ih _ _ _ _ h r h0 m hm hmv
          · rw [if_neg h3] at h
            by_cases h5 : ignore = true
            · rw [if_pos h5] at h
              rcases List.mem_cons.mp hr with h0 | h0
              · subst h0
                exact reqScanExtra_mono envE newNames lockPkgs ignore rest _ _ deps' out' h
                  (canonicalize_name r.name)
                  (List.mem_append_right _ (List.mem_singleton.mpr rfl))
              · exact ih _ _ _ _ h r h0 m hm hmv
            · rw [if_neg h5] at h
              cases h
        · rw [if_neg h2] at h
          rcases List.mem_cons.mp hr with h0 | h0
          · subst h0
            rw [hm0] at hm
            cases hm
            exact absurd hmv h2
          · exact ih _ _ _ _ h r h0 m hm hmv

theorem extrasLoop_mono (env : MEnv) (newNames : List String)
    (lockPkgs : List (String × PackageSpec)) (ignore : Bool) (reqs : List Requirement) :
    ∀ extras deps out deps' out',
    extrasLoop env newNames lockPkgs ignore reqs extras deps out = .ok (deps', out') →
    ∀ x ∈ deps, x ∈ deps' := by
  intro extras
  induction extras with
  | nil =>
    intro deps out deps' out' h x hx
    simp only [extrasLoop, Except.ok.injEq, Prod.mk.injEq] at h
    rw [← h.1]
    exact hx
  | cons e es ih =>
    intro deps out deps' out' h x hx
    simp only [extrasLoop] at h
    cases hscan : reqScanExtra (envSet env "extra" e) newNames lockPkgs ignore reqs deps out with
    | error er =>
      rw [hscan] at h
      cases h
    | ok pr =>
      obtain ⟨d2, o2⟩ := pr
      rw [hscan] at h
      dsimp only at h
      exact ih _ _ _ _ h x
        (reqScanExtra_mono _ _ _ _ reqs deps out d2 o2 hscan x hx)

theorem extrasLoop_hit (env : MEnv) (newNames : List String)
    (lockPkgs : List (String × PackageSpec)) (ignore : Bool) (reqs : List Requirement) :
    ∀ extras deps out deps' out',
    extrasLoop env newNames lockPkgs ignore reqs extras deps out = .ok (deps', out') →
    ∀ e ∈ extras, ∀ r ∈ reqs, ∀ m, r.marker = some m →
    m (envSet env "extra" e) = true →
    canonicalize_name r.name ∈ deps' := by
  intro extras
  induction extras with
  | nil =>
    intro deps out deps' out' h e he
    cases he
  | cons e0 es ih =>
    intro deps out deps' out' h e he r hr m hm hmv
    simp only [extrasLoop] at h
    cases hscan : reqScanExtra (envSet env "extra" e0) newNames lockPkgs ignore reqs deps out with
    | error er =>
      rw [hscan] at h
      cases h
    | ok pr =>
      obtain ⟨d2, o2⟩ := pr
      rw [hscan] at h
      dsimp only at h
      rcases List.mem_cons.mp he with h0 | h0
      · subst h0
        have hmem := reqScanExtra_hit _ _ _ _ reqs deps out d2 o2 hscan r hr m hm hmv
        exact extrasLoop_mono env newNames lockPkgs ignore reqs es d2 o2 deps' out' h
          (canonicalize_name r.name) hmem
      · exact ih _ _ _ _ h e h0 r hr m hm hmv

/-- C3: during the extras worklist drain, a pending
requirement-with-extras whose canonical target is not among the batch's
draft packages causes no change at all (first conjunct); when the target
is in the batch, for each named extra every requirement of the target
whose marker evaluates true under the environment augmented with that
extra ends up (on success) in the `depends` of the *target* package
(second conjunct), while every other package's entry is left untouched
(third conjunct). -/
theorem fix_extra_dep_extras_expansion (disk : Disk) (env : MEnv)
    (lockPkgs : List (String × PackageSpec)) (er : Requirement)
    (new_packages pkgs' : List (String × PackageSpec)) (out : List Requirement)
    (ignore : Bool) (package : PackageSpec) (wd : WheelData) (md : WheelMeta) :
    (dictLookup new_packages (canonicalize_name er.name) = none →
      fix_extra_dep disk env lockPkgs er new_packages ignore = .ok (new_packages, [])) ∧
    (fix_extra_dep disk env lockPkgs er new_packages ignore = .ok (pkgs', out) →
      dictLookup new_packages (canonicalize_name er.name) = some package →
      disk package.file_name = some wd → wd.meta = some md →
      (∀ e ∈ er.extras, ∀ r ∈ md.requires_dist, ∀ m, r.marker = some m →
        m (envSet env "extra" e) = true →
        ∃ p', dictLookup pkgs' (canonicalize_name er.name) = some p' ∧
          canonicalize_name r.name ∈ p'.depends) ∧
      (∀ k, k ≠ canonicalize_name er.name →
        dictLookup pkgs' k = dictLookup new_packages k)) := by
  constructor
  · intro hnone
    unfold fix_extra_dep
    dsimp only
    rw [hnone]
  · intro h hlook hdisk hmeta
    unfold fix_extra_dep at h
    dsimp only at h
    rw [hlook] at h
    dsimp only at h
    rw [hdisk] at h
    dsimp only at h
    rw [hmeta] at h
    dsimp only at h
    cases hloop : extrasLoop env (dictKeys new_packages) lockPkgs ignore md.requires_dist
        er.extras package.depends [] with
    | error e2 =>
      rw [hloop] at h
      cases h
    | ok pr =>
      obtain ⟨our_depends, out2⟩ := pr
      rw [hloop] at h
      dsimp only at h
      simp only [Except.ok.injEq, Prod.mk.injEq] at h
      constructor
      · intro e he r hr m hm hmv
        refine ⟨{ package with depends := our_depends }, ?_, ?_⟩
        · rw [← h.1, dictLookup_dictInsert, if_pos rfl]
        · exact extrasLoop_hit env (dictKeys new_packages) lockPkgs ignore
            md.requires_dist er.extras package.depends [] our_depends out2 hloop
            e he r hr m hm hmv
      · intro k hk
        rw [← h.1, dictLookup_dictInsert, if_neg (fun hh => hk hh.symm)]

/-- C3 witness: draining the pending requirement `pkga[feat]` adds
`pkgb` (whose marker requires the `feat` extra) to the `depends` of the
batch package `pkga`, and a pending requirement naming a package outside
the batch changes nothing. -/
theorem fix_extra_dep_extras_expansion_witness :
    (∃ p', dictLookup fedResX.1 (canonicalize_name erX.name) = some p' ∧
      canonicalize_name reqBfeat.name ∈ p'.depends) ∧
    fix_extra_dep diskX envX [("pkgb", pkgbLockEntry)] erAbsent [("pkga", draftAempty)]
      false = .ok ([("pkga", draftAempty)], []) := by
  constructor
  · exact ((fix_extra_dep_extras_expansion diskX envX [("pkgb", pkgbLockEntry)] erX
      [("pkga", draftAempty)] fedResX.1 fedResX.2 false draftAempty wheelAxdata metaAx).2
      rfl rfl rfl rfl).1 "feat" (List.mem_singleton.mpr rfl) reqBfeat
      (List.mem_singleton.mpr rfl) markerFeat rfl rfl
  · exact (fix_extra_dep_extras_expansion diskX envX [("pkgb", pkgbLockEntry)] erAbsent
      [("pkga", draftAempty)] [] [] false draftAempty wheelAxdata metaAx).1 rfl

/-! ### Resolution-trichotomy lemmas (claim C4) -/

theorem survivesB_of_not_skip (env : MEnv) (r : Requirement)
    (h : ¬((match r.marker with | some m => !(m env) | none => false) = true)) :
    survivesB env r = true := by
  unfold survivesB
  cases hm : r.marker with
  | none => rfl
  | some m =>
    rw [hm] at h
    simpa using h

theorem processReqs_hit (env : MEnv) (newNames : List String)
    (lockPkgs : List (String × PackageSpec)) (ignore : Bool) :
    ∀ reqs d ex, processReqs env newNames lockPkgs ignore reqs = .ok (d, ex) →
    ∀ r ∈ reqs, survivesB env r = true → canonicalize_name r.name ∈ d := by
  intro reqs
  induction reqs with
  | nil =>
    intro d ex h r hr
    cases hr
  | cons r0 rest ih =>
    intro d ex h r hr hsurv
    simp only [processReqs] at h
    by_cases hskip : (match r0.marker with | some m => !(m env) | none => false) = true
    · rw [if_pos hskip] at h
      rcases List.mem_cons.mp hr with h0 | h0
      · subst h0
        exfalso
        unfold survivesB at hsurv
        cases hm : r.marker with
        | none =>
          rw [hm] at hskip
          cases hskip
        | some m =>
          rw [hm] at hskip hsurv
          dsimp only at hskip hsurv
          rw [hsurv] at hskip
          cases hskip
      · exact ih d ex h r h0 hsurv
    · rw [if_neg hskip] at h
      by_cases hres : (newNames.contains (canonicalize_name r0.name)
          || dictMem lockPkgs (canonicalize_name r0.name)) = true
      · rw [if_pos hres] at h
        cases hrec : processReqs env newNames lockPkgs ignore rest with
        | error e =>
          rw [hrec] at h
          cases h
        | ok pr =>
          obtain ⟨d2, ex2⟩ := pr
          rw [hrec] at h
          simp only [Except.ok.injEq, Prod.mk.injEq] at h
          rw [← h.1]
          rcases List.mem_cons.mp hr with h0 | h0
          · subst h0
            exact List.mem_cons_self _ _
          · exact List.mem_cons_of_mem _ (ih d2 ex2 hrec r h0 hsurv)
      · rw [if_neg hres] at h
        by_cases hig : ignore = true
        · rw [if_pos hig] at h
          cases hrec : processReqs env newNames lockPkgs ignore rest with
          | error e =>
            rw [hrec] at h
            cases h
          | ok pr =>
            obtain ⟨d2, ex2⟩ := pr
            rw [hrec] at h
            simp only [Except.ok.injEq, Prod.mk.injEq] at h
            rw [← h.1]
            rcases List.mem_cons.mp hr with h0 | h0
            · subst h0
              exact List.mem_cons_self _ _
            · exact List.mem_cons_of_mem _ (ih d2 ex2 hrec r h0 hsurv)
        · rw [if_neg hig] at h
          cases h

theorem processReqs_ignore_total (env : MEnv) (newNames : List String)
    (lockPkgs : List (String × PackageSpec)) :
    ∀ reqs, ∃ d ex, processReqs env newNames lockPkgs true reqs = .ok (d, ex) := by
  intro reqs
  induction reqs with
  | nil => exact ⟨[], [], rfl⟩
  | cons r rest ih =>
    obtain ⟨d, ex, hrec⟩ := ih
    by_cases hskip : (match r.marker with | some m => !(m env) | none => false) = true
    · refine ⟨d, ex, ?_⟩
      simp only [processReqs]
      rw [if_pos hskip]
      exact hrec
    · by_cases hres : (newNames.contains (canonicalize_name r.name)
          || dictMem lockPkgs (canonicalize_name r.name)) = true
      · refine ⟨canonicalize_name r.name :: d,
          (if r.extras.isEmpty then [] else [r]) ++ ex, ?_⟩
        simp only [processReqs]
        rw [if_neg hskip, if_pos hres, hrec]
      · refine ⟨canonicalize_name r.name :: d,
          (if r.extras.isEmpty then [] else [r]) ++ ex, ?_⟩
        simp only [processReqs]
        rw [if_neg hskip, if_neg hres]
        simp only [if_true]
        rw [hrec]

theorem processReqs_error_char (env : MEnv) (newNames : List String)
    (lockPkgs : List (String × PackageSpec)) (ignore : Bool) :
    ∀ reqs er, processReqs env newNames lockPkgs ignore reqs = .error er →
    ignore = false ∧ ∃ r ∈ reqs, survivesB env r = true ∧
      er = .missingDep (canonicalize_name r.name) ∧
      newNames.contains (canonicalize_name r.name) = false ∧
      dictMem lockPkgs (canonicalize_name r.name) = false := by
  intro reqs
  induction reqs with
  | nil =>
    intro er h
    cases h
  | cons r0 rest ih =>
    intro er h
    simp only [processReqs] at h
    by_cases hskip : (match r0.marker with | some m => !(m env) | none => false) = true
    · rw [if_pos hskip] at h
      obtain ⟨hig, r, hr, hrest⟩ := ih er h
      exact ⟨hig, r, List.mem_cons_of_mem _ hr, hrest⟩
    · rw [if_neg hskip] at h
      by_cases hres : (newNames.contains (canonicalize_name r0.name)
          || dictMem lockPkgs (canonicalize_name r0.name)) = true
      · rw [if_pos hres] at h
        cases hrec : processReqs env newNames lockPkgs ignore rest with
        | error e2 =>
          rw [hrec] at h
          simp only [Except.error.injEq] at h
          obtain ⟨hig, r, hr, hrest⟩ := ih e2 hrec
          exact ⟨hig, r, List.mem_cons_of_mem _ hr, h ▸ hrest⟩
        | ok pr =>
          obtain ⟨d2, ex2⟩ := pr
          rw [hrec] at h
          cases h
      · rw [if_neg hres] at h
        by_cases hig : ignore = true
        · rw [if_pos hig] at h
          cases hrec : processReqs env newNames lockPkgs ignore rest with
          | error e2 =>
            rw [hrec] at h
            simp only [Except.error.injEq] at h
            obtain ⟨hig2, r, hr, hrest⟩ := ih e2 hrec
            exact ⟨hig2, r, List.mem_cons_of_mem _ hr, h ▸ hrest⟩
          | ok pr =>
            obtain ⟨d2, ex2⟩ := pr
            rw [hrec] at h
            cases h
        · rw [if_neg hig] at h
          simp only [Except.error.injEq] at h
          have hboth : newNames.contains (canonicalize_name r0.name) = false ∧
              dictMem lockPkgs (canonicalize_name r0.name) = false := by
            constructor <;> [skip; skip] <;> revert hres <;> cases hc1 : newNames.contains
              (canonicalize_name r0.name) <;> cases hc2 : dictMem lockPkgs
              (canonicalize_name r0.name) <;> simp
          exact ⟨Bool.eq_false_iff.mpr hig, r0, List.mem_cons_self _ _,
            survivesB_of_not_skip env r0 hskip, h.symm, hboth.1, hboth.2⟩

theorem reqScanExtra_error_char (envE : MEnv) (newNames : List String)
    (lockPkgs : List (String × PackageSpec)) (ignore : Bool) :
    ∀ reqs deps out er,
    reqScanExtra envE newNames lockPkgs ignore reqs deps out = .error er →
    ignore = false ∧ ∃ r ∈ reqs, (∃ m, r.marker = some m ∧ m envE = true) ∧
      er = .missingDep (canonicalize_name r.name) ∧
      newNames.contains (canonicalize_name r.name) = false ∧
      dictMem lockPkgs (canonicalize_name r.name) = false := by
  intro reqs
  induction reqs with
  | nil =>
    intro deps out er h
    cases h
  | cons r0 rest ih =>
    intro deps out er h
    simp only [reqScanExtra] at h
    by_cases h1 : deps.contains (canonicalize_name r0.name) = true
    · rw [if_pos h1] at h
      obtain ⟨hig, r, hr, hrest⟩ := ih _ _ er h
      exact ⟨hig, r, List.mem_cons_of_mem _ hr, hrest⟩
    · rw [if_neg h1] at h
      cases hm : r0.marker with
      | none =>
        rw [hm] at h
        dsimp only at h
        obtain ⟨hig, r, hr, hrest⟩ := ih _ _ er h
        exact ⟨hig, r, List.mem_cons_of_mem _ hr, hrest⟩
      | some m =>
        rw [hm] at h
        dsimp only at h
        by_cases h2 : m envE = true
        · rw [if_pos h2] at h
          by_cases h3 : (newNames.contains (canonicalize_name r0.name)
              || dictMem lockPkgs (canonicalize_name r0.name)) = true
          · rw [if_pos h3] at h
            obtain ⟨hig, r, hr, hrest⟩ := ih _ _ er h
            exact ⟨hig, r, List.mem_cons_of_mem _ hr, hrest⟩
          · rw [if_neg h3] at h
            by_cases h5 : ignore = true
            · rw [if_pos h5] at h
              obtain ⟨hig, r, hr, hrest⟩ := ih _ _ er h
              exact ⟨hig, r, List.mem_cons_of_mem _ hr, hrest⟩
            · rw [if_neg h5] at h
              simp only [Except.error.injEq] at h
              have hboth : newNames.contains (canonicalize_name r0.name) = false ∧
                  dictMem lockPkgs (canonicalize_name r0.name) = false := by
                constructor <;> [skip; skip] <;> revert h3 <;> cases hc1 : newNames.contains
                  (canonicalize_name r0.name) <;> cases hc2 : dictMem lockPkgs
                  (canonicalize_name r0.name) <;> simp
              exact ⟨Bool.eq_false_iff.mpr h5, r0, List.mem_cons_self _ _,
                ⟨m, hm, h2⟩, h.symm, hboth.1, hboth.2⟩
        · rw [if_neg h2] at h
          obtain ⟨hig, r, hr, hrest⟩ := ih _ _ er h
          exact ⟨hig, r, List.mem_cons_of_mem _ hr, hrest⟩

/-- C4: a requirement surviving marker filtering is recorded when its
canonical name resolves in the batch or the lockfile; with the
ignore-missing override enabled the scan never fails and the unresolved
name is still recorded; with the override disabled an unresolved
requirement makes the scan fail with an error naming it — and these are
the only outcomes, for the main requirement scan (conjuncts 1–3) and for
the extras re-scan (conjuncts 4–5). -/
theorem requirement_resolution_trichotomy (env envE : MEnv) (newNames : List String)
    (lockPkgs : List (String × PackageSpec)) (ignore : Bool) (reqs : List Requirement)
    (d deps deps' : List String) (ex out out' : List Requirement) (er : MergeError) :
    (processReqs env newNames lockPkgs ignore reqs = .ok (d, ex) →
      ∀ r ∈ reqs, survivesB env r = true →
        canonicalize_name r.name ∈ d ∧
        (newNames.contains (canonicalize_name r.name) = true ∨
          dictMem lockPkgs (canonicalize_name r.name) = true ∨ ignore = true)) ∧
    (∃ d2 ex2, processReqs env newNames lockPkgs true reqs = .ok (d2, ex2)) ∧
    (processReqs env newNames lockPkgs ignore reqs = .error er →
      ignore = false ∧ ∃ r ∈ reqs, survivesB env r = true ∧
        er = .missingDep (canonicalize_name r.name) ∧
        newNames.contains (canonicalize_name r.name) = false ∧
        dictMem lockPkgs (canonicalize_name r.name) = false) ∧
    (reqScanExtra envE newNames lockPkgs ignore reqs deps out = .ok (deps', out') →
      ∀ r ∈ reqs, ∀ m, r.marker = some m → m envE = true →
        canonicalize_name r.name ∈ deps' ∧
        (canonicalize_name r.name ∈ deps ∨
          newNames.contains (canonicalize_name r.name) = true ∨
          dictMem lockPkgs (canonicalize_name r.name) = true ∨ ignore = true)) ∧
    (reqScanExtra envE newNames lockPkgs ignore reqs deps out = .error er →
      ignore = false ∧ ∃ r ∈ reqs, (∃ m, r.marker = some m ∧ m envE = true) ∧
        er = .missingDep (canonicalize_name r.name) ∧
        newNames.contains (canonicalize_name r.name) = false ∧
        dictMem lockPkgs (canonicalize_name r.name) = false) := by
  refine ⟨?_, processReqs_ignore_total env newNames lockPkgs reqs,
    processReqs_error_char env newNames lockPkgs ignore reqs er, ?_,
    reqScanExtra_error_char envE newNames lockPkgs ignore reqs deps out er⟩
  · intro h r hr hsurv
    refine ⟨processReqs_hit env newNames lockPkgs ignore reqs d ex h r hr hsurv, ?_⟩
    exact processReqs_deps_sound env newNames lockPkgs ignore reqs d ex h
      (canonicalize_name r.name)
      (processReqs_hit env newNames lockPkgs ignore reqs d ex h r hr hsurv)
  · intro h r hr m hm hmv
    refine ⟨reqScanExtra_hit envE newNames lockPkgs ignore reqs deps out deps' out' h
      r hr m hm hmv, ?_⟩
    exact reqScanExtra_sound envE newNames lockPkgs ignore reqs deps out deps' out' h
      (canonicalize_name r.name)
      (reqScanExtra_hit envE newNames lockPkgs ignore reqs deps out deps' out' h
        r hr m hm hmv)

/-- C4 witness: a resolvable requirement is recorded, the override makes
an unresolvable scan succeed, an unresolvable requirement fails naming
itself, and the same three outcomes are exercised on the extras
re-scan. -/
theorem requirement_resolution_trichotomy_witness :
    (canonicalize_name reqPlain.name ∈ ["pkgb"] ∧
      (["pkga"].contains (canonicalize_name reqPlain.name) = true ∨
        dictMem [("pkgb", pkgbLockEntry)] (canonicalize_name reqPlain.name) = true ∨
        false = true)) ∧
    (∃ d2 ex2, processReqs envX ["pkga"] [("pkgb", pkgbLockEntry)] true [reqMissing]
      = .ok (d2, ex2)) ∧
    (false = false ∧ ∃ r ∈ [reqMissing], survivesB envX r = true ∧
      MergeError.missingDep "nope" = .missingDep (canonicalize_name r.name) ∧
      ["pkga"].contains (canonicalize_name r.name) = false ∧
      dictMem [("pkgb", pkgbLockEntry)] (canonicalize_name r.name) = false) ∧
    (canonicalize_name reqBfeat.name ∈ ["pkgb"] ∧
      (canonicalize_name reqBfeat.name ∈ ([] : List String) ∨
        ["pkga"].contains (canonicalize_name reqBfeat.name) = true ∨
        dictMem [("pkgb", pkgbLockEntry)] (canonicalize_name reqBfeat.name) = true ∨
        false = true)) ∧
    (false = false ∧ ∃ r ∈ [reqMissingM], (∃ m, r.marker = some m ∧
        m (envSet envX "extra" "feat") = true) ∧
      MergeError.missingDep "nope" = .missingDep (canonicalize_name r.name) ∧
      ["pkga"].contains (canonicalize_name r.name) = false ∧
      dictMem [("pkgb", pkgbLockEntry)] (canonicalize_name r.name) = false) := by
  refine ⟨?_, ?_, ?_, ?_, ?_⟩
  · exact (requirement_resolution_trichotomy envX (envSet envX "extra" "feat") ["pkga"]
      [("pkgb", pkgbLockEntry)] false [reqPlain] ["pkgb"] [] [] [] [] []
      (.missingDep "nope")).1 rfl reqPlain (List.mem_singleton.mpr rfl) rfl
  · exact (requirement_resolution_trichotomy envX (envSet envX "extra" "feat") ["pkga"]
      [("pkgb", pkgbLockEntry)] false [reqMissing] [] [] [] [] [] []
      (.missingDep "nope")).2.1
  · exact (requirement_resolution_trichotomy envX (envSet envX "extra" "feat") ["pkga"]
      [("pkgb", pkgbLockEntry)] false [reqMissing] [] [] [] [] [] []
      (.missingDep "nope")).2.2.1 rfl
  · exact (requirement_resolution_trichotomy envX (envSet envX "extra" "feat") ["pkga"]
      [("pkgb", pkgbLockEntry)] false [reqBfeat] [] [] ["pkgb"] [] [] []
      (.missingDep "nope")).2.2.2.1 rfl reqBfeat (List.mem_singleton.mpr rfl)
      markerFeat rfl rfl
  · exact (requirement_resolution_trichotomy envX (envSet envX "extra" "feat") ["pkga"]
      [("pkgb", pkgbLockEntry)] false [reqMissingM] [] [] [] [] [] []
      (.missingDep "nope")).2.2.2.2 rfl

/-! ### Filename-validation lemmas (claim C6) -/

theorem dictLookup_eq_none_of_not_mem_keys {α : Type} (d : List (String × α)) (k : String)
    (h : k ∉ dictKeys d) : dictLookup d k = none := by
  induction d with
  | nil => rfl
  | cons a t ih =>
    obtain ⟨a1, a2⟩ := a
    rw [dictKeys_cons, List.mem_cons] at h
    push_neg at h
    have hne : ¬a1 = k := fun he => h.1 (Eq.symm he)
    simp only [dictLookup, if_neg hne]
    exact ih h.2

theorem errInsert_new (errors : List (String × List String)) (k msg : String)
    (h : dictLookup errors k = none) :
    errInsert errors k msg = errors ++ [(k, [msg])] := by
  unfold errInsert
  rw [h]

theorem dictInsert_append_last (errors : List (String × List String)) (k : String)
    (l l' : List String) (h : dictLookup errors k = none) :
    dictInsert (errors ++ [(k, l)]) k l' = errors ++ [(k, l')] := by
  induction errors with
  | nil => simp [dictInsert]
  | cons a t ih =>
    obtain ⟨a1, a2⟩ := a
    by_cases h1 : a1 = k
    · rw [dictLookup, if_pos h1] at h
      cases h
    · rw [dictLookup, if_neg h1] at h
      simp only [List.cons_append, dictInsert, if_neg h1]
      exact congrArg _ (ih h)

theorem errInsert_snd (errors : List (String × List String)) (k : String)
    (l : List String) (msg : String) (h : dictLookup errors k = none) :
    errInsert (errors ++ [(k, l)]) k msg = errors ++ [(k, l ++ [msg])] := by
  have hl : dictLookup (errors ++ [(k, l)]) k = some l := by
    rw [dictLookup_append_of_none _ _ _ h]
    simp [dictLookup]
  unfold errInsert
  rw [hl]
  exact dictInsert_append_last errors k l (l ++ [msg]) h

theorem entryMsgs_length (parseWF : String → Option (String × String))
    (canonV : String → String) (kp : String × PackageSpec) :
    (entryMsgs parseWF canonV kp).length = specMismatchCount parseWF canonV kp := by
  unfold entryMsgs specMismatchCount
  by_cases hw : strEndsWith kp.2.file_name ".whl" = true
  · rw [if_pos hw, if_pos hw]
    cases hp : parseWF kp.2.file_name with
    | none => rfl
    | some nv =>
      obtain ⟨n, v⟩ := nv
      by_cases h1 : canonicalize_name n = canonicalize_name kp.2.name <;>
        by_cases h2 : canonV v = canonV kp.2.version <;>
          simp [h1, h2]
  · rw [if_neg hw, if_neg hw]
    rfl

theorem entriesErrors_cons (parseWF : String → Option (String × String))
    (canonV : String → String) (kp : String × PackageSpec)
    (rest : List (String × PackageSpec)) :
    entriesErrors parseWF canonV (kp :: rest)
      = (if (entryMsgs parseWF canonV kp).isEmpty then []
         else [(kp.1, entryMsgs parseWF canonV kp)]) ++ entriesErrors parseWF canonV rest :=
  rfl

theorem entriesErrors_keys_subset (parseWF : String → Option (String × String))
    (canonV : String → String) :
    ∀ pkgs k, k ∈ dictKeys (entriesErrors parseWF canonV pkgs) → k ∈ dictKeys pkgs := by
  intro pkgs
  induction pkgs with
  | nil =>
    intro k h
    cases h
  | cons kp rest ih =>
    intro k h
    rw [entriesErrors_cons, dictKeys, List.map_append, List.mem_append] at h
    rcases h with h | h
    · by_cases hemp : (entryMsgs parseWF canonV kp).isEmpty = true
      · rw [if_pos hemp] at h
        cases h
      · rw [if_neg hemp] at h
        simp only [List.map_cons, List.map_nil, List.mem_singleton] at h
        rw [h]
        unfold dictKeys
        rw [List.map_cons]
        exact List.mem_cons_self _ _
    · exact List.mem_cons_of_mem _ (ih k h)

theorem errLen_entriesErrors (parseWF : String → Option (String × String))
    (canonV : String → String) :
    ∀ pkgs, (dictKeys pkgs).Nodup →
    ∀ kp ∈ pkgs, errLen (entriesErrors parseWF canonV pkgs) kp.1
      = (entryMsgs parseWF canonV kp).length := by
  intro pkgs
  induction pkgs with
  | nil =>
    intro _ kp hkp
    cases hkp
  | cons hd rest ih =>
    intro hnodup kp hkp
    rw [dictKeys_cons] at hnodup
    have hnd := List.nodup_cons.mp hnodup
    rcases List.mem_cons.mp hkp with h0 | h0
    · subst h0
      rw [entriesErrors_cons]
      unfold errLen
      by_cases hemp : (entryMsgs parseWF canonV kp).isEmpty = true
      · rw [if_pos hemp]
        simp only [List.nil_append]
        have hnone : dictLookup (entriesErrors parseWF canonV rest) kp.1 = none :=
          dictLookup_eq_none_of_not_mem_keys _ _
            (fun hm => hnd.1 (entriesErrors_keys_subset parseWF canonV rest kp.1 hm))
        rw [hnone, List.isEmpty_iff.mp hemp]
        rfl
      · rw [if_neg hemp]
        simp [dictLookup]
    · have hk1 : kp.1 ∈ dictKeys rest := List.mem_map_of_mem Prod.fst h0
      have hne : hd.1 ≠ kp.1 := fun he => hnd.1 (he ▸ hk1)
      rw [entriesErrors_cons]
      unfold errLen
      by_cases hemp : (entryMsgs parseWF canonV hd).isEmpty = true
      · rw [if_pos hemp]
        simp only [List.nil_append]
        have := ih hnd.2 kp h0
        unfold errLen at this
        exact this
      · rw [if_neg hemp]
        simp only [List.singleton_append, dictLookup, if_neg hne]
        have := ih hnd.2 kp h0
        unfold errLen at this
        exact this

theorem checkWheelLoop_eq (parseWF : String → Option (String × String))
    (canonV : String → String) :
    ∀ pkgs errors,
    (∀ kp ∈ pkgs, strEndsWith kp.2.file_name ".whl" = true →
      (parseWF kp.2.file_name).isSome = true) →
    (dictKeys pkgs).Nodup →
    (∀ k ∈ dictKeys pkgs, dictLookup errors k = none) →
    checkWheelLoop parseWF canonV pkgs errors
      = .ok (errors ++ entriesErrors parseWF canonV pkgs) := by
  intro pkgs
  induction pkgs with
  | nil =>
    intro errors _ _ _
    simp [checkWheelLoop, entriesErrors]
  | cons hd rest ih =>
    intro errors hparse hnodup hdisj
    obtain ⟨k, p⟩ := hd
    rw [dictKeys_cons] at hnodup hdisj
    have hnd := List.nodup_cons.mp hnodup
    have hdk : dictLookup errors k = none := hdisj k (List.mem_cons_self _ _)
    have hdisj2 : ∀ k2 ∈ dictKeys rest, dictLookup errors k2 = none :=
      fun k2 hk2 => hdisj k2 (List.mem_cons_of_mem _ hk2)
    simp only [checkWheelLoop]
    by_cases hwhl : strEndsWith p.file_name ".whl" = true
    · rw [if_pos hwhl]
      have hps := hparse (k, p) (List.mem_cons_self _ _) hwhl
      dsimp only at hps
      cases hp : parseWF p.file_name with
      | none =>
        rw [hp] at hps
        cases hps
      | some nv =>
        obtain ⟨n, v⟩ := nv
        dsimp only
        by_cases h1 : canonicalize_name n = canonicalize_name p.name <;>
          by_cases h2 : canonV v = canonV p.version
        · rw [if_pos h1, if_pos h2]
          rw [ih errors (fun kp2 hk => hparse kp2 (List.mem_cons_of_mem _ hk)) hnd.2 hdisj2]
          have hmsgs : entryMsgs parseWF canonV (k, p) = [] := by
            simp [entryMsgs, hwhl, hp, h1, h2]
          rw [entriesErrors_cons, hmsgs]
          simp
        · rw [if_pos h1, if_neg h2, errInsert_new errors k _ hdk]
          rw [ih (errors ++ [(k, [verMsg (canonV v) (canonV p.version)])])
            (fun kp2 hk => hparse kp2 (List.mem_cons_of_mem _ hk)) hnd.2 ?_]
          · have hmsgs : entryMsgs parseWF canonV (k, p)
                = [verMsg (canonV v) (canonV p.version)] := by
              simp [entryMsgs, hwhl, hp, h1, h2]
            rw [entriesErrors_cons, hmsgs]
            simp
          · intro k2 hk2
            have hne : k ≠ k2 := fun he => hnd.1 (he ▸ hk2)
            rw [dictLookup_append_of_none _ _ _ (hdisj2 k2 hk2)]
            simp [dictLookup, if_neg hne]
        · rw [if_neg h1, errInsert_new errors k _ hdk, if_pos h2]
          rw [ih (errors ++ [(k, [nameMsg n p.name])])
            (fun kp2 hk => hparse kp2 (List.mem_cons_of_mem _ hk)) hnd.2 ?_]
          · have hmsgs : entryMsgs parseWF canonV (k, p) = [nameMsg n p.name] := by
              simp [entryMsgs, hwhl, hp, h1, h2]
            rw [entriesErrors_cons, hmsgs]
            simp
          · intro k2 hk2
            have hne : k ≠ k2 := fun he => hnd.1 (he ▸ hk2)
            rw [dictLookup_append_of_none _ _ _ (hdisj2 k2 hk2)]
            simp [dictLookup, if_neg hne]
        · rw [if_neg h1, errInsert_new errors k _ hdk, if_neg h2,
            errInsert_snd errors k _ _ hdk]
          rw [ih (errors ++ [(k, [nameMsg n p.name] ++ [verMsg (canonV v) (canonV p.version)])])
            (fun kp2 hk => hparse kp2 (List.mem_cons_of_mem _ hk)) hnd.2 ?_]
          · have hmsgs : entryMsgs parseWF canonV (k, p)
                = [nameMsg n p.name] ++ [verMsg (canonV v) (canonV p.version)] := by
              simp [entryMsgs, hwhl, hp, h1, h2]
            rw [entriesErrors_cons, hmsgs]
            simp
          · intro k2 hk2
            have hne : k ≠ k2 := fun he => hnd.1 (he ▸ hk2)
            rw [dictLookup_append_of_none _ _ _ (hdisj2 k2 hk2)]
            simp [dictLookup, if_neg hne]
    · rw [if_neg hwhl]
      rw [ih errors (fun kp2 hk => hparse kp2 (List.mem_cons_of_mem _ hk)) hnd.2 hdisj2]
      have hmsgs : entryMsgs parseWF canonV (k, p) = [] := by
        simp [entryMsgs, hwhl]
      rw [entriesErrors_cons, hmsgs]
      simp

theorem entriesErrors_eq_nil_iff (parseWF : String → Option (String × String))
    (canonV : String → String) :
    ∀ pkgs, entriesErrors parseWF canonV pkgs = [] ↔
      ∀ kp ∈ pkgs, entryMsgs parseWF canonV kp = [] := by
  intro pkgs
  induction pkgs with
  | nil => simp [entriesErrors]
  | cons kp rest ih =>
    rw [entriesErrors_cons]
    constructor
    · intro h kp2 hkp2
      have happ := List.append_eq_nil.mp h
      rcases List.mem_cons.mp hkp2 with h0 | h0
      · subst h0
        by_cases hemp : (entryMsgs parseWF canonV kp2).isEmpty = true
        · exact List.isEmpty_iff.mp hemp
        · rw [if_neg hemp] at happ
          cases happ.1
      · exact ih.mp happ.2 kp2 h0
    · intro h
      rw [if_pos (List.isEmpty_iff.mpr (h kp (List.mem_cons_self _ _))), List.nil_append]
      exact ih.mpr (fun kp2 hkp2 => h kp2 (List.mem_cons_of_mem _ hkp2))

/-- C6: the whole-lockfile filename check (assuming every local wheel
filename parses, and the package map's keys are distinct as Python
dicts guarantee) succeeds exactly when no entry has a discrepancy, and
on failure it reports, for every entry of the package map, exactly one
message per name discrepancy and one per version discrepancy, all
accumulated in the single raised error. -/
theorem check_wheel_filenames_collects_all (parseWF : String → Option (String × String))
    (canonV : String → String) (lock : PyodideLockSpec)
    (errs : List (String × List String))
    (hnodup : (dictKeys lock.packages).Nodup)
    (hparse : ∀ kp ∈ lock.packages, strEndsWith kp.2.file_name ".whl" = true →
      (parseWF kp.2.file_name).isSome = true) :
    (check_wheel_filenames parseWF canonV lock = .ok () ↔
      ∀ kp ∈ lock.packages, specMismatchCount parseWF canonV kp = 0) ∧
    (check_wheel_filenames parseWF canonV lock = .error (.mismatches errs) →
      errs ≠ [] ∧
      ∀ kp ∈ lock.packages, errLen errs kp.1 = specMismatchCount parseWF canonV kp) := by
  have hloop := checkWheelLoop_eq parseWF canonV lock.packages [] hparse hnodup
    (fun k _ => rfl)
  rw [List.nil_append] at hloop
  unfold check_wheel_filenames
  rw [hloop]
  dsimp only
  by_cases hemp : (entriesErrors parseWF canonV lock.packages).isEmpty = true
  · rw [if_pos hemp]
    have hnil := List.isEmpty_iff.mp hemp
    have hall := (entriesErrors_eq_nil_iff parseWF canonV lock.packages).mp hnil
    constructor
    · constructor
      · intro _ kp hkp
        rw [← entryMsgs_length parseWF canonV kp, hall kp hkp]
        rfl
      · intro _
        rfl
    · intro hcontr
      cases hcontr
  · rw [if_neg hemp]
    constructor
    · constructor
      · intro hcontr
        cases hcontr
      · intro hall
        exfalso
        apply hemp
        apply List.isEmpty_iff.mpr
        apply (entriesErrors_eq_nil_iff parseWF canonV lock.packages).mpr
        intro kp hkp
        have hc := hall kp hkp
        rw [← entryMsgs_length parseWF canonV kp] at hc
        exact List.length_eq_zero.mp hc
    · intro h
      simp only [Except.error.injEq, CheckError.mismatches.injEq] at h
      constructor
      · rw [← h]
        intro hnil
        exact hemp (List.isEmpty_iff.mpr hnil)
      · intro kp hkp
        rw [← h, errLen_entriesErrors parseWF canonV lock.packages hnodup kp hkp]
        exact entryMsgs_length parseWF canonV kp

/-- C6 witness: the consistent entry yields zero mismatch messages; the
entry whose filename disagrees in both name and version yields exactly
two messages, collected in the single reported error. -/
theorem check_wheel_filenames_collects_all_witness :
    specMismatchCount parseC6 (fun v => v) ("numpy", specNumpy) = 0 ∧
    C6errs ≠ [] ∧
    errLen C6errs "foo" = specMismatchCount parseC6 (fun v => v) ("foo", specFoo) ∧
    specMismatchCount parseC6 (fun v => v) ("foo", specFoo) = 2 := by
  have hgood := (check_wheel_filenames_collects_all parseC6 (fun v => v) lockC6good []
    (by decide) (by decide)).1.mp rfl ("numpy", specNumpy) (by decide)
  have hbad := (check_wheel_filenames_collects_all parseC6 (fun v => v) lockC6 C6errs
    (by decide) (by decide)).2 rfl
  exact ⟨hgood, hbad.1, hbad.2 ("foo", specFoo) (by decide), rfl⟩

end PyodideLock
